import Mathlib

/-!
# Markdown editor: text mutation, outline extraction, scroll sync, auto-save

A shallow embedding of the pure cores of `src/App.jsx`, `src/components/Toolbar.jsx`
and `src/components/Preview.jsx`, followed by the properties proved about them.

JavaScript strings are modelled as the list of their UTF-16 code units, so that
`length`, `substring`, `startsWith`, `includes` and the (non-unicode-mode) regular
expressions of the source act on the same units as they do in the engine.
-/

namespace MarkdownEditor

/-! ## JavaScript strings -/

/-- A JavaScript string, as the sequence of its UTF-16 code units. -/
abbrev JSString := List Nat

/-- UTF-16 encoding of one Unicode scalar value. -/
def utf16 (c : Char) : List Nat :=
  if c.toNat < 65536 then [c.toNat]
  else [55296 + (c.toNat - 65536) / 1024, 56320 + (c.toNat - 65536) % 1024]

/-- The JavaScript string denoted by a source literal. -/
def js (s : String) : JSString := s.toList.flatMap utf16

/-- `String.prototype.substring(start, end)`: both bounds are clamped to
`[0, length]` and swapped when `start > end`. -/
def substring (s : JSString) (start stop : Int) : JSString :=
  let len : Int := s.length
  let finalStart := min (max start 0) len
  let finalEnd := min (max stop 0) len
  let lo := min finalStart finalEnd
  let hi := max finalStart finalEnd
  (s.drop lo.toNat).take (hi - lo).toNat

/-- `String.prototype.substring(start)`: the end defaults to the length. -/
def substringFrom (s : JSString) (start : Int) : JSString :=
  substring s start s.length

/-- `String.prototype.startsWith(pat)`. -/
def startsWith (s pat : JSString) : Bool := pat.isPrefixOf s

/-- `String.prototype.includes(pat)`: `pat` occurs at some position of `s`. -/
def includes (s pat : JSString) : Bool :=
  (List.range (s.length + 1)).any fun i => startsWith (s.drop i) pat

/-- An integer offset clamped to `[0, len]`. -/
def clampIndex (x : Int) (len : Nat) : Nat := (min (max x 0) (len : Int)).toNat

/-! ## Text mutation (`App.jsx` `handleInsert`, `Toolbar.jsx` `handleSmartInsert`) -/

/-- The part of the textarea element the handlers read. -/
structure Textarea where
  value : JSString
  selectionStart : Int
  selectionEnd : Int
deriving DecidableEq, Repr

/-- What one call of `handleInsert` produces: the value returned by the
`setMarkdown` updater, and the two arguments passed to `setSelectionRange`
(`none` when the call is not made). -/
structure InsertOutcome where
  markdown : JSString
  selection : Option (Int × Int)
deriving DecidableEq, Repr

/-- `handleInsert(text)` of `App.jsx`, for the buffer `prev` held by the state. -/
def handleInsert (textareaRef : Option Textarea) (prev text : JSString) : InsertOutcome :=
  match textareaRef with
  | none => { markdown := prev ++ text, selection := none }
  | some textarea =>
    let start := textarea.selectionStart
    let stop := textarea.selectionEnd
    let hasSelection : Bool := start != stop
    let before := substring prev 0 start
    let after := substringFrom prev stop
    let newPosition : Int :=
      if hasSelection then
        let isWrapping : Bool :=
          includes text (js "**") || includes text (js "*") ||
          includes text (js "~~") || includes text (js "[")
        if isWrapping then
          let wrapLength : Int :=
            if startsWith text (js "**") then 2
            else if startsWith text (js "~~") then 2
            else if startsWith text (js "[") then 1 else 1
          let contentLength : Int := (text.length : Int) - wrapLength * 2
          start + wrapLength + contentLength
        else start + (text.length : Int)
      else start + (text.length : Int)
    { markdown := before ++ text ++ after, selection := some (newPosition, newPosition) }

/-- `handleSmartInsert(type, prefix, suffix, defaultText)` of `Toolbar.jsx`: the
text it passes to `onInsert`. -/
def handleSmartInsert (textareaRef : Option Textarea) (pfx sfx defaultText : JSString) :
    JSString :=
  match textareaRef with
  | none => pfx ++ defaultText ++ sfx
  | some textarea =>
    let selectedText := substring textarea.value textarea.selectionStart textarea.selectionEnd
    if selectedText ≠ [] then pfx ++ selectedText ++ sfx
    else pfx ++ defaultText ++ sfx

/-- The four toolbar buttons that call `handleSmartInsert`. -/
inductive WrapCommand where
  | bold
  | italic
  | strikethrough
  | link
deriving DecidableEq, Repr

/-- The opening marker of a wrap button (second argument of `handleSmartInsert`). -/
def WrapCommand.pfx : WrapCommand → JSString
  | .bold => js "**"
  | .italic => js "*"
  | .strikethrough => js "~~"
  | .link => js "["

/-- The closing marker of a wrap button (third argument of `handleSmartInsert`). -/
def WrapCommand.sfx : WrapCommand → JSString
  | .bold => js "**"
  | .italic => js "*"
  | .strikethrough => js "~~"
  | .link => js "](https://example.com)"

/-- The placeholder of a wrap button (fourth argument of `handleSmartInsert`). -/
def WrapCommand.defaultText : WrapCommand → JSString
  | .bold => js "粗体文字"
  | .italic => js "斜体文字"
  | .strikethrough => js "删除文字"
  | .link => js "链接文字"

/-- The value a textarea element reports for the text it was given: every CR LF pair
and every remaining CR reads as one LF. -/
def normalizeNewlines : JSString → JSString
  | [] => []
  | 13 :: 10 :: cs => 10 :: normalizeNewlines cs
  | 13 :: cs => 10 :: normalizeNewlines cs
  | c :: cs => c :: normalizeNewlines cs

/-- A click on a wrap button while the state holds `buffer`: `handleSmartInsert` builds
the text and hands it to `handleInsert`. Both read the same textarea; its `value` is
the buffer as the element reports it, and `start`, `stop` are offsets into that value,
whereas the updater of `handleInsert` splices the state itself. -/
def clickWrap (cmd : WrapCommand) (buffer : JSString) (start stop : Int) : InsertOutcome :=
  let textarea : Textarea :=
    { value := normalizeNewlines buffer, selectionStart := start, selectionEnd := stop }
  handleInsert (some textarea) buffer
    (handleSmartInsert (some textarea) cmd.pfx cmd.sfx cmd.defaultText)

/-! ## Outline extraction (`Preview.jsx` `extractHeadings`, `Preview` `useMemo`) -/

/-- The class `\s` of ECMAScript regular expressions (WhiteSpace and LineTerminator
code units); `String.prototype.trim` strips the same units. -/
def isWhiteSpace (c : Nat) : Bool :=
  c == 9 || c == 10 || c == 11 || c == 12 || c == 13 || c == 32 || c == 160 ||
  c == 5760 || (8192 ≤ c && c ≤ 8202) || c == 8232 || c == 8233 || c == 8239 ||
  c == 8287 || c == 12288 || c == 65279

/-- The ECMAScript line terminators, which `.` does not match: LF, CR, U+2028, U+2029. -/
def isLineTerminator (c : Nat) : Bool :=
  c == 10 || c == 13 || c == 8232 || c == 8233

/-- The class `\w`: `[A-Za-z0-9_]`. -/
def isWordChar (c : Nat) : Bool :=
  (48 ≤ c && c ≤ 57) || (65 ≤ c && c ≤ 90) || c == 95 || (97 ≤ c && c ≤ 122)

/-- `String.prototype.trim`. -/
def trim (s : JSString) : JSString :=
  ((s.dropWhile isWhiteSpace).reverse.dropWhile isWhiteSpace).reverse

/-- `content.split('\n')`. -/
def splitLines : JSString → List JSString
  | [] => [[]]
  | c :: cs =>
    if c = 10 then [] :: splitLines cs
    else
      match splitLines cs with
      | [] => [[c]]
      | l :: ls => (c :: l) :: ls

/-- The tail `(.+)$` of the heading expression tried on what is left of the line: it
must consume all of it, at least one unit, and `.` refuses line terminators. -/
def matchDotPlusEnd (rest : JSString) : Option JSString :=
  if rest ≠ [] ∧ rest.all (fun c => !isLineTerminator c) then some rest else none

/-- The part `\s+(.+)$` tried on `s` with `\s+` taking `j` units, then `j - 1`, ..., then 1
(greedy, giving back one unit at a time); the result is the second capture. -/
def matchSpacesThen (s : JSString) : Nat → Option JSString
  | 0 => none
  | j + 1 =>
    match matchDotPlusEnd (s.drop (j + 1)) with
    | some t => some t
    | none => matchSpacesThen s j

/-- The part `^(#{1,6})\s+(.+)$` tried with the first group taking `k` units, then
`k - 1`, ..., then 1; the result is the pair of captures. -/
def matchHashesThen (line : JSString) : Nat → Option (JSString × JSString)
  | 0 => none
  | k + 1 =>
    match matchSpacesThen (line.drop (k + 1))
        ((line.drop (k + 1)).takeWhile isWhiteSpace).length with
    | some t => some (line.take (k + 1), t)
    | none => matchHashesThen line k

/-- The captures of `line.match(/^(#{1,6})\s+(.+)$/)`, `none` when there is no match. The
first group starts from the longest run of `#` it may take, at most 6. -/
def matchHeading (line : JSString) : Option (JSString × JSString) :=
  matchHashesThen line (min 6 (line.takeWhile (fun c => c == 35)).length)

/-- `.replace(/[^\w\s\u4e00-\u9fa5-]/g, '')`: every unit outside the class is replaced
by the empty string. -/
def stripSpecial (s : JSString) : JSString :=
  s.flatMap fun c =>
    if isWordChar c || isWhiteSpace c || (19968 ≤ c && c ≤ 40869) || c == 45 then [c] else []

/-- `.replace(/\s+/g, '-')`, scanning left to right; `inRun` tells that the previous
unit belonged to the match being consumed. -/
def replaceSpaceRunsFrom (inRun : Bool) : JSString → JSString
  | [] => []
  | c :: cs =>
    if isWhiteSpace c then
      if inRun then replaceSpaceRunsFrom true cs else 45 :: replaceSpaceRunsFrom true cs
    else c :: replaceSpaceRunsFrom false cs

/-- `.replace(/\s+/g, '-')`. -/
def replaceSpaceRuns (s : JSString) : JSString := replaceSpaceRunsFrom false s

/-- A heading entry `{ level, text, id }`. -/
structure Heading where
  level : Nat
  text : JSString
  id : JSString
deriving DecidableEq, Repr

/-- The anchor id computed for a heading text. `toLowerCase` stands for the built-in
`String.prototype.toLowerCase`. -/
def headingId (toLowerCase : JSString → JSString) (text : JSString) : JSString :=
  replaceSpaceRuns (stripSpecial (toLowerCase text))

/-- The body of the loop of `extractHeadings` for one line: the entry pushed, if any. -/
def headingOfLine (toLowerCase : JSString → JSString) (line : JSString) : Option Heading :=
  match matchHeading line with
  | none => none
  | some (hashes, trailing) =>
    let level := hashes.length
    let text := trim trailing
    let id := headingId toLowerCase text
    some { level := level, text := text, id := id }

/-- One turn of the loop of `extractHeadings`: `headings.push(...)` when the line matches. -/
def pushHeading (toLowerCase : JSString → JSString) (headings : List Heading)
    (line : JSString) : List Heading :=
  match headingOfLine toLowerCase line with
  | some h => headings ++ [h]
  | none => headings

/-- `extractHeadings(content)`: the loop over the lines, starting from no heading. -/
def extractHeadings (toLowerCase : JSString → JSString) (content : JSString) : List Heading :=
  (splitLines content).foldl (pushHeading toLowerCase) []

/-- The built-in `toLowerCase` on strings whose cased letters are all ASCII. -/
def asciiToLowerCase (s : JSString) : JSString :=
  s.map fun c => if 65 ≤ c ∧ c ≤ 90 then c + 32 else c

/-- `content.replace(/\[TOC\]/g, '')`, scanning left to right; `skip` counts the units
of the current match still to be consumed. -/
def removeTOCFrom : Nat → JSString → JSString
  | _, [] => []
  | skip + 1, _ :: cs => removeTOCFrom skip cs
  | 0, c :: cs =>
    if startsWith (c :: cs) (js "[TOC]") then removeTOCFrom 4 cs
    else c :: removeTOCFrom 0 cs

/-- `content.replace(/\[TOC\]/g, '')`. -/
def removeTOC (content : JSString) : JSString := removeTOCFrom 0 content

/-- The value of the `useMemo` of `Preview`. -/
structure Processed where
  processedContent : JSString
  headings : List Heading
  hasTOC : Bool
deriving DecidableEq, Repr

/-- The `useMemo` of `Preview`: headings, marker detection, marker removal. -/
def processContent (toLowerCase : JSString → JSString) (content : JSString) : Processed :=
  let headings := extractHeadings toLowerCase content
  let hasTOC := includes content (js "[TOC]")
  let processedContent := removeTOC content
  { processedContent := processedContent, headings := headings, hasTOC := hasTOC }

/-- The heading pattern as the specification words it: 1 to 6 leading `#`, then at
least one whitespace unit, then non-empty trailing text. -/
def HeadingPattern (line : JSString) : Prop :=
  ∃ (k : Nat) (ws rest : JSString), 1 ≤ k ∧ k ≤ 6 ∧ ws ≠ [] ∧
    (∀ c ∈ ws, isWhiteSpace c = true) ∧ rest ≠ [] ∧
    line = List.replicate k 35 ++ ws ++ rest

/-- The heading pattern with the trailing text free of line terminators. -/
def HeadingLine (line : JSString) : Prop :=
  ∃ (k : Nat) (ws rest : JSString), 1 ≤ k ∧ k ≤ 6 ∧ ws ≠ [] ∧
    (∀ c ∈ ws, isWhiteSpace c = true) ∧ rest ≠ [] ∧
    (∀ c ∈ rest, isLineTerminator c = false) ∧
    line = List.replicate k 35 ++ ws ++ rest

/-- Each run of units of the class `p` replaced by one hyphen: at a unit of the class,
one hyphen stands for the whole run. -/
def hyphenateRunsOf (p : Nat → Bool) : JSString → JSString
  | [] => []
  | c :: cs =>
    if p c then 45 :: hyphenateRunsOf p (cs.dropWhile p)
    else c :: hyphenateRunsOf p cs
termination_by s => s.length
decreasing_by
  · have := List.Sublist.length_le (List.dropWhile_sublist p (l := cs))
    simp only [List.length_cons]
    omega
  · simp

/-- Each run of whitespace replaced by one hyphen, as the specification words it. -/
def hyphenateRuns (s : JSString) : JSString := hyphenateRunsOf isWhiteSpace s

/-- The slug as the specification words it: lowercase; remove every unit that is
not a word character, whitespace, in U+4E00..U+9FA5 or a hyphen; replace each run of
whitespace by one hyphen. -/
def slugSpec (toLowerCase : JSString → JSString) (text : JSString) : JSString :=
  hyphenateRuns ((toLowerCase text).filter fun c =>
    isWordChar c || isWhiteSpace c || (19968 ≤ c && c ≤ 40869) || c == 45)

/-! ## Scroll synchronisation (`App.jsx` `handleEditorScroll`, `handlePreviewScroll`) -/

/-- The two panes; a pending reset timer remembers whose flag its callback clears. -/
inductive PaneId where
  | editor
  | preview
deriving DecidableEq, Repr

/-- The part of a scrollable element the handlers read and write. -/
structure Pane where
  scrollTop : ℚ
  scrollHeight : ℚ
  clientHeight : ℚ
deriving DecidableEq

/-- The refs the scroll handlers work on, and the clock in milliseconds:
`isScrollingRef.current.editor`, `isScrollingRef.current.preview`, the pending timer
of `scrollSyncTimeoutRef` (the flag it clears and the time it is due),
`textareaRef.current` and `previewRef.current`. -/
structure SyncState where
  now : Nat
  isScrollingEditor : Bool
  isScrollingPreview : Bool
  scrollSyncTimeout : Option (PaneId × Nat)
  textarea : Option Pane
  preview : Option Pane
deriving DecidableEq

/-- `handleEditorScroll(scrollPercentage)`. -/
def handleEditorScroll (scrollPercentage : ℚ) (s : SyncState) : SyncState :=
  if s.isScrollingPreview then s
  else
    { s with
      isScrollingEditor := true
      preview := s.preview.map fun el =>
        { el with scrollTop := scrollPercentage * (el.scrollHeight - el.clientHeight) }
      scrollSyncTimeout := some (PaneId.editor, s.now + 100) }

/-- `handlePreviewScroll(scrollPercentage)`. -/
def handlePreviewScroll (scrollPercentage : ℚ) (s : SyncState) : SyncState :=
  if s.isScrollingEditor then s
  else
    { s with
      isScrollingPreview := true
      textarea := s.textarea.map fun el =>
        { el with scrollTop := scrollPercentage * (el.scrollHeight - el.clientHeight) }
      scrollSyncTimeout := some (PaneId.preview, s.now + 100) }

/-- Whether the pending reset timer is due once `ms` more milliseconds have passed. -/
def SyncState.timerDue (s : SyncState) (ms : Nat) : Bool :=
  match s.scrollSyncTimeout with
  | some (_, due) => decide (due ≤ s.now + ms)
  | none => false

/-- The clock advances by `ms`; a reset timer that is due runs its callback, which
clears the flag of its pane. -/
def SyncState.elapse (ms : Nat) (s : SyncState) : SyncState :=
  match s.scrollSyncTimeout with
  | some (pane, due) =>
    if due ≤ s.now + ms then
      match pane with
      | .editor =>
        { s with now := s.now + ms, isScrollingEditor := false, scrollSyncTimeout := none }
      | .preview =>
        { s with now := s.now + ms, isScrollingPreview := false, scrollSyncTimeout := none }
    else { s with now := s.now + ms }
  | none => { s with now := s.now + ms }

/-- What can happen to the scroll synchronisation: a scroll event of either pane,
carrying the fraction computed by the pane, or the passing of time. -/
inductive SyncEvent where
  | editorScroll (scrollPercentage : ℚ)
  | previewScroll (scrollPercentage : ℚ)
  | elapse (ms : Nat)

/-- One event applied to the state. -/
def SyncState.step (s : SyncState) : SyncEvent → SyncState
  | .editorScroll f => handleEditorScroll f s
  | .previewScroll f => handlePreviewScroll f s
  | .elapse ms => s.elapse ms

/-- A sequence of events applied in order. -/
def SyncState.run (s : SyncState) (evs : List SyncEvent) : SyncState :=
  evs.foldl SyncState.step s

/-- No reset timer fires while the events are applied from `s`. -/
def SyncState.noTimerFires : SyncState → List SyncEvent → Bool
  | _, [] => true
  | s, .elapse ms :: evs => !s.timerDue ms && (s.step (.elapse ms)).noTimerFires evs
  | s, ev :: evs => (s.step ev).noTimerFires evs

/-- The other pane. -/
def PaneId.other : PaneId → PaneId
  | .editor => .preview
  | .preview => .editor

/-- The suppression flag of a pane. -/
def SyncState.flag (s : SyncState) : PaneId → Bool
  | .editor => s.isScrollingEditor
  | .preview => s.isScrollingPreview

/-- The element of a pane. -/
def SyncState.pane (s : SyncState) : PaneId → Option Pane
  | .editor => s.textarea
  | .preview => s.preview

/-- The scroll event of a pane. -/
def SyncEvent.scroll : PaneId → ℚ → SyncEvent
  | .editor, f => .editorScroll f
  | .preview, f => .previewScroll f

/-! ## Loading and auto-save (`App.jsx`, the two `useEffect` of `App`) -/

/-- The state and refs of `App` that the two effects work on, the clock in
milliseconds, and the log of the calls of `saveContent`: `markdown`, `isLoaded`, the
pending timer of `saveTimeoutRef` (the time it is due and the `markdown` its callback
captured), and the arguments `saveContent` was called with, oldest first. -/
structure Session where
  now : Nat
  markdown : JSString
  isLoaded : Bool
  saveTimeout : Option (Nat × JSString)
  saved : List JSString
deriving DecidableEq, Repr

/-- The body of the auto-save effect, run for the `markdown` and `isLoaded` of the
current render: nothing before the load, else the pending timer is cleared and a new
one is set for 1000 ms later. -/
def autoSaveEffect (s : Session) : Session :=
  if !s.isLoaded then s
  else { s with saveTimeout := some (s.now + 1000, s.markdown) }

/-- The cleanup returned by the auto-save effect: the pending timer is cleared. -/
def autoSaveCleanup (s : Session) : Session :=
  { s with saveTimeout := none }

/-- The state of `App` at its first render. -/
def Session.initial (now : Nat) : Session :=
  { now := now, markdown := [], isLoaded := false, saveTimeout := none, saved := [] }

/-- The mount of `App`. After the first render the load effect calls
`setMarkdown(saved || defaultContent)` and `setIsLoaded(true)`, and the auto-save
effect runs with the values of that render (`isLoaded` false). The state updates cause
a second render, and as `isLoaded` (a dependency) changed the auto-save effect runs
again with the new values. `loaded` is the result of `loadContent()`. -/
def Session.mount (defaultContent : JSString) (loaded : Option JSString) (now : Nat) :
    Session :=
  let first := autoSaveEffect (Session.initial now)
  let content :=
    match loaded with
    | some saved => if saved ≠ [] then saved else defaultContent
    | none => defaultContent
  let updated := { first with markdown := content, isLoaded := true }
  autoSaveEffect updated

/-- A buffer replacement `setMarkdown(value)`: React keeps the state and skips the
render when the value is the same; otherwise the dependency `markdown` changed, so the
cleanup of the previous run and then the effect run. -/
def Session.change (value : JSString) (s : Session) : Session :=
  if value = s.markdown then s
  else autoSaveEffect (autoSaveCleanup { s with markdown := value })

/-- The clock advances by `ms`; a save timer that is due runs its callback, which calls
`saveContent` with the captured `markdown`. -/
def Session.elapse (ms : Nat) (s : Session) : Session :=
  match s.saveTimeout with
  | some (due, value) =>
    if due ≤ s.now + ms then
      { s with now := s.now + ms, saveTimeout := none, saved := s.saved ++ [value] }
    else { s with now := s.now + ms }
  | none => { s with now := s.now + ms }

/-- A burst of edits: each entry waits `ms` milliseconds and then replaces the buffer. -/
def Session.burst (s : Session) : List (Nat × JSString) → Session
  | [] => s
  | (ms, value) :: rest => ((s.elapse ms).change value).burst rest

/-! ## Storage and the default document (`utils/storage.js`, `App.jsx`) -/

/-- `defaultContent` of `App.jsx`, the built-in sample document. -/
def defaultContent : JSString := js "# Markdown 编辑器示例

欢迎使用功能强大的 Markdown 编辑器！本编辑器支持实时预览、语法高亮、数学公式、Mermaid 图表、目录生成等功能。

[TOC]

## 文本样式

这是**粗体文字**，这是*斜体文字*，这是~~删除线文字~~。

你也可以组合使用：***粗斜体***

## 列表

### 无序列表
- 第一项
- 第二项
  - 子项 2.1
  - 子项 2.2
- 第三项

### 有序列表
1. 第一步
2. 第二步
3. 第三步

### 任务列表
- [x] 已完成的任务
- [ ] 待完成的任务
- [ ] 另一个待完成的任务

## 链接和引用

这是一个 [链接示例](https://github.com)。

> 这是一段引用文字。
> 
> 引用可以有多段。

## 代码

### 行内代码
使用 `console.log()` 来输出日志。

### 代码块

```javascript
function fibonacci(n) \x7b
  if (n <= 1) return n;
  return fibonacci(n - 1) + fibonacci(n - 2);
\x7d

console.log(fibonacci(10)); // 输出: 55
```

```python
def hello_world():
    print(\"Hello, World!\")
    
hello_world()
```

## 表格

| 特性 | 支持 | 说明 |
|------|------|------|
| Markdown | ✅ | 基础语法 |
| 代码高亮 | ✅ | 多语言支持 |
| 数学公式 | ✅ | KaTeX |
| Mermaid | ✅ | 流程图等 |

## 数学公式

### 行内公式
爱因斯坦质能方程：$E = mc^2$

勾股定理：$a^2 + b^2 = c^2$

### 块级公式

$$
\\frac\x7b-b \\pm \\sqrt\x7bb^2 - 4ac\x7d\x7d\x7b2a\x7d
$$

$$
\\sum_\x7bi=1\x7d^\x7bn\x7d i = \\frac\x7bn(n+1)\x7d\x7b2\x7d
$$

$$
\\int_\x7b0\x7d^\x7b\\infty\x7d e^\x7b-x^2\x7d dx = \\frac\x7b\\sqrt\x7b\\pi\x7d\x7d\x7b2\x7d
$$

## Mermaid 图表

### 流程图
```mermaid
graph TD
    A[开始] --> B\x7b判断条件\x7d
    B -->|是| C[执行操作]
    B -->|否| D[跳过]
    C --> E[结束]
    D --> E
```

### 序列图
```mermaid
sequenceDiagram
    participant 用户
    participant 前端
    participant 后端
    participant 数据库
    
    用户->>前端: 发起请求
    前端->>后端: API 调用
    后端->>数据库: 查询数据
    数据库-->>后端: 返回结果
    后端-->>前端: 返回数据
    前端-->>用户: 显示结果
```

### 饼图
```mermaid
pie title 编程语言使用占比
    \"JavaScript\" : 35
    \"Python\" : 30
    \"Java\" : 20
    \"Go\" : 10
    \"其他\" : 5
```

## 图片

![示例图片](https://via.placeholder.com/400x200?text=Markdown+Editor)

---

## 提示

- 内容会自动保存到浏览器本地存储
- 使用工具栏快速插入 Markdown 语法
- 支持上传本地图片（转为 Base64）
- 可以下载编辑的内容为 .md 文件
- 使用 `[TOC]` 自动生成文档目录
- 左右两侧滚动自动同步

**开始编辑你的文档吧！** 🚀
"

/-- `loadContent()` of `utils/storage.js`. `getItem` is the outcome of
`localStorage.getItem(STORAGE_KEY)`: the stored string, `null` (`none`) when the slot
is empty, or an exception, which is caught and turned into `null`. -/
def loadContent (getItem : Except String (Option JSString)) : Option JSString :=
  match getItem with
  | .ok saved => saved
  | .error _ => none

/-- The buffer once `App` has mounted on a storage whose read gives `getItem`. -/
def initialBuffer (getItem : Except String (Option JSString)) : JSString :=
  (Session.mount defaultContent (loadContent getItem) 0).markdown

/-! ## Scroll fraction (`Editor.jsx` and `Preview.jsx`, `handleScroll`) -/

/-- A JavaScript number as far as the scroll handlers need it: a finite value (the
rounding of doubles is left out), `NaN`, or an infinity. -/
inductive JSNumber where
  | finite (value : ℚ)
  | nan
  | posInf
  | negInf
deriving DecidableEq

/-- The quotient `a / b` of two finite JavaScript numbers, the divisor being a
non-negative zero when it is zero (here a difference `x - x`): `0 / 0` is `NaN` and a
non-zero number over zero is an infinity of its sign. -/
def jsDiv (a b : ℚ) : JSNumber :=
  if b = 0 then
    if a = 0 then .nan else if 0 < a then .posInf else .negInf
  else .finite (a / b)

/-- `handleScroll(e)` of `Editor.jsx`, for `e.target = target`: the argument passed to
`onScroll`, or `none` when no `onScroll` was given. -/
def Editor.handleScroll (onScroll : Bool) (target : Pane) : Option JSNumber :=
  if onScroll then
    let scrollPercentage := jsDiv target.scrollTop (target.scrollHeight - target.clientHeight)
    some scrollPercentage
  else none

/-- `handleScroll(e)` of `Preview.jsx`, for `e.target = target`: the argument passed
to `onScroll`, or `none` when no `onScroll` was given. -/
def Preview.handleScroll (onScroll : Bool) (target : Pane) : Option JSNumber :=
  if onScroll then
    let scrollPercentage := jsDiv target.scrollTop (target.scrollHeight - target.clientHeight)
    some scrollPercentage
  else none

/-! ## Properties -/

theorem substring_zero_eq_take (s : JSString) (a : Int) :
    substring s 0 a = s.take (clampIndex a s.length) := by
  unfold substring clampIndex
  have h1 : min (max (0 : Int) 0) (s.length : Int) = 0 := by omega
  simp only [h1]
  have h2 : min (0 : Int) (min (max a 0) (s.length : Int)) = 0 := by omega
  have h3 : max (0 : Int) (min (max a 0) (s.length : Int)) = min (max a 0) (s.length : Int) := by
    omega
  simp [h2, h3]

theorem substringFrom_eq_drop (s : JSString) (b : Int) :
    substringFrom s b = s.drop (clampIndex b s.length) := by
  unfold substringFrom substring clampIndex
  have h1 : min (max (s.length : Int) 0) (s.length : Int) = s.length := by omega
  simp only [h1]
  have h2 : min (min (max b 0) (s.length : Int)) (s.length : Int)
      = min (max b 0) (s.length : Int) := by omega
  have h3 : max (min (max b 0) (s.length : Int)) (s.length : Int) = s.length := by omega
  simp only [h2, h3]
  apply List.take_of_length_le
  simp only [List.length_drop]
  omega

theorem clampIndex_natCast (n len : Nat) (h : n ≤ len) : clampIndex (n : Int) len = n := by
  unfold clampIndex
  omega

theorem substring_natCast (s : JSString) (a b : Nat) (hab : a ≤ b) (hb : b ≤ s.length) :
    substring s a b = (s.drop a).take (b - a) := by
  unfold substring
  have h1 : min (max (a : Int) 0) (s.length : Int) = a := by omega
  have h2 : min (max (b : Int) 0) (s.length : Int) = b := by omega
  simp only [h1, h2]
  have h3 : min (a : Int) (b : Int) = a := by omega
  have h4 : max (a : Int) (b : Int) = b := by omega
  simp only [h3, h4, Int.toNat_ofNat]
  have h5 : ((b : Int) - (a : Int)).toNat = b - a := by omega
  rw [h5]

theorem handleInsert_markdown (ta : Textarea) (prev text : JSString) :
    (handleInsert (some ta) prev text).markdown
      = prev.take (clampIndex ta.selectionStart prev.length) ++ text
          ++ prev.drop (clampIndex ta.selectionEnd prev.length) := by
  simp [handleInsert, substring_zero_eq_take, substringFrom_eq_drop]

/-- C1. For a selection `0 <= start <= stop <= buffer.length` and any payload,
`handleInsert` produces `buffer[0:start] + payload + buffer[stop:]`: its length is
`buffer.length - (stop - start) + payload.length`, the text before `start` and the
text after `stop` are unchanged, and for a caret (`start = stop`) the selection is
set to the single offset `start + payload.length`, which lies inside the new buffer. -/
theorem handleInsert_splices (buffer payload value : JSString) (start stop : Nat)
    (h1 : start ≤ stop) (h2 : stop ≤ buffer.length) :
    let r := handleInsert (some ⟨value, start, stop⟩) buffer payload
    r.markdown = buffer.take start ++ payload ++ buffer.drop stop ∧
    r.markdown.length + (stop - start) = buffer.length + payload.length ∧
    r.markdown.take start = buffer.take start ∧
    r.markdown.drop (start + payload.length) = buffer.drop stop ∧
    (start = stop →
      r.selection = some ((start : Int) + payload.length, (start : Int) + payload.length) ∧
      start + payload.length ≤ r.markdown.length) := by
  have hs : start ≤ buffer.length := le_trans h1 h2
  have hm : (handleInsert (some ⟨value, start, stop⟩) buffer payload).markdown
      = buffer.take start ++ payload ++ buffer.drop stop := by
    rw [handleInsert_markdown]
    simp only [clampIndex_natCast _ _ hs, clampIndex_natCast _ _ h2]
  have hlen : (buffer.take start).length = start := by simp [hs]
  intro r
  refine ⟨hm, ?_, ?_, ?_, ?_⟩
  · show (handleInsert (some ⟨value, start, stop⟩) buffer payload).markdown.length + _ = _
    rw [hm]
    simp only [List.length_append, List.length_take, List.length_drop]
    omega
  · show (handleInsert (some ⟨value, start, stop⟩) buffer payload).markdown.take start = _
    rw [hm, List.append_assoc, List.take_append_eq_append_take]
    simp [hlen]
  · show (handleInsert (some ⟨value, start, stop⟩) buffer payload).markdown.drop _ = _
    rw [hm]
    have : start + payload.length = (buffer.take start ++ payload).length := by
      simp [hs]
    rw [this, List.drop_left]
  · intro he
    refine ⟨?_, ?_⟩
    · show (handleInsert (some ⟨value, start, stop⟩) buffer payload).selection = _
      subst he
      simp [handleInsert]
    · show _ ≤ (handleInsert (some ⟨value, start, stop⟩) buffer payload).markdown.length
      rw [hm]
      simp only [List.length_append, List.length_take, List.length_drop]
      omega

/-- C1, at the scenario of the specification: inserting `**bold**` at caret 0 of
`# Title\n\ntext\n## Sub\n` puts it in front and sets the caret to offset 8. -/
theorem handleInsert_splices_witness :
    (0 : Nat) ≤ 0 ∧ 0 ≤ (js "# Title\n\ntext\n## Sub\n").length ∧
    handleInsert (some ⟨js "# Title\n\ntext\n## Sub\n", 0, 0⟩) (js "# Title\n\ntext\n## Sub\n")
        (js "**bold**")
      = ⟨js "**bold**# Title\n\ntext\n## Sub\n", some (8, 8)⟩ ∧
    (let r := handleInsert (some ⟨js "# Title\n\ntext\n## Sub\n", (0 : Nat), (0 : Nat)⟩)
        (js "# Title\n\ntext\n## Sub\n") (js "**bold**")
     r.markdown = (js "# Title\n\ntext\n## Sub\n").take 0 ++ js "**bold**"
        ++ (js "# Title\n\ntext\n## Sub\n").drop 0 ∧
     r.markdown.length + (0 - 0) = (js "# Title\n\ntext\n## Sub\n").length + (js "**bold**").length ∧
     r.markdown.take 0 = (js "# Title\n\ntext\n## Sub\n").take 0 ∧
     r.markdown.drop (0 + (js "**bold**").length) = (js "# Title\n\ntext\n## Sub\n").drop 0 ∧
     ((0 : Nat) = 0 →
       r.selection = some (((0 : Nat) : Int) + (js "**bold**").length,
         ((0 : Nat) : Int) + (js "**bold**").length) ∧
       0 + (js "**bold**").length ≤ r.markdown.length)) :=
  ⟨le_refl 0, Nat.zero_le _, by decide,
    handleInsert_splices (js "# Title\n\ntext\n## Sub\n") (js "**bold**")
      (js "# Title\n\ntext\n## Sub\n") 0 0 (le_refl 0) (Nat.zero_le _)⟩

/-- C8. For every buffer, payload and pair of integer selection bounds (in or out of
range, in particular for `start <= stop`), the buffer computed by `handleInsert` is
`buffer[0:s] + payload + buffer[e:]` with `s`, `e` the bounds clamped to
`[0, buffer.length]`; the computation is total, so no bound makes it fail. -/
theorem handleInsert_clamps (buffer payload value : JSString) (start stop : Int) :
    (handleInsert (some ⟨value, start, stop⟩) buffer payload).markdown
      = buffer.take (clampIndex start buffer.length) ++ payload
          ++ buffer.drop (clampIndex stop buffer.length) ∧
    clampIndex start buffer.length ≤ buffer.length ∧
    clampIndex stop buffer.length ≤ buffer.length ∧
    (start ≤ 0 → clampIndex start buffer.length = 0) ∧
    ((buffer.length : Int) ≤ stop → clampIndex stop buffer.length = buffer.length) ∧
    (0 ≤ start → start ≤ buffer.length → (clampIndex start buffer.length : Int) = start) ∧
    (0 ≤ stop → stop ≤ buffer.length → (clampIndex stop buffer.length : Int) = stop) := by
  refine ⟨handleInsert_markdown _ _ _, ?_, ?_, ?_, ?_, ?_, ?_⟩ <;>
    unfold clampIndex <;> omega

theorem js_bold : js "**" = [42, 42] := by decide

theorem js_star : js "*" = [42] := by decide

theorem js_tilde : js "~~" = [126, 126] := by decide

theorem js_bracket : js "[" = [91] := by decide

theorem startsWith_append (p x : JSString) : startsWith (p ++ x) p = true := by
  unfold startsWith
  induction p with
  | nil => simp [List.isPrefixOf]
  | cons a p ih => simp [List.isPrefixOf, ih]

theorem includes_of_startsWith (s pat : JSString) (h : startsWith s pat = true) :
    includes s pat = true := by
  unfold includes
  rw [List.any_eq_true]
  exact ⟨0, by simp, by simpa using h⟩

theorem handleSmartInsert_selected (buffer pfx sfx d : JSString) (start stop : Nat)
    (h1 : start < stop) (h2 : stop ≤ buffer.length) :
    handleSmartInsert (some ⟨buffer, start, stop⟩) pfx sfx d
      = pfx ++ (buffer.drop start).take (stop - start) ++ sfx := by
  have hne : (buffer.drop start).take (stop - start) ≠ [] := by
    intro h
    have := congrArg List.length h
    simp only [List.length_take, List.length_drop, List.length_nil] at this
    omega
  simp only [handleSmartInsert, substring_natCast buffer start stop (le_of_lt h1) h2]
  rw [if_pos hne]

/-- The offset `handleInsert` passes to `setSelectionRange` when a selection existed
and the text begins with a marker: the whole length less the measured marker. -/
theorem handleInsert_selection_wrapping (value prev text : JSString) (start stop : Int)
    (w : Int) (hsel : start ≠ stop)
    (hwrap : (includes text (js "**") || includes text (js "*") ||
      includes text (js "~~") || includes text (js "[")) = true)
    (hw : (if startsWith text (js "**") then (2 : Int)
            else if startsWith text (js "~~") then 2
            else if startsWith text (js "[") then 1 else 1) = w) :
    (handleInsert (some ⟨value, start, stop⟩) prev text).selection
      = some (start + w + ((text.length : Int) - w * 2),
              start + w + ((text.length : Int) - w * 2)) := by
  have hb : (start != stop) = true := by simpa using hsel
  simp only [handleInsert, hb, hwrap, hw, if_true]

/-- C2 (evaluation at the failing input). The link button applied to the selection
`ab` (buffer `ab`, start 0, end 2) inserts `[ab](https://example.com)` and sets the
caret to offset 24, one unit before the end of the suffix, whereas
`start + prefix.length + (end - start)` is 3; and the italic button applied to the
selection `*a` sets it to offset 2, whereas that sum is 3. -/
theorem clickWrap_link_caret_misplaced :
    clickWrap .link (js "ab") 0 2 = ⟨js "[ab](https://example.com)", some (24, 24)⟩ ∧
    (0 : Int) + (WrapCommand.link.pfx.length : Int) + (2 - 0) = 3 ∧
    clickWrap .italic (js "*a") 0 2 = ⟨js "**a*", some (2, 2)⟩ ∧
    (0 : Int) + (WrapCommand.italic.pfx.length : Int) + (2 - 0) = 3 := by
  decide

/-- C10 (evaluation at the failing input). Wrapping the selection `text` (buffer
`text`, start 0, end 4) with the italic markers gives `*text*`, but the selection
handed to `setSelectionRange` is the single offset 5, not the range from
`start + P.length = 1` to `start + P.length + S.length = 5` that spans the original
selection. -/
theorem clickWrap_selection_not_range :
    clickWrap .italic (js "text") 0 4 = ⟨js "*text*", some (5, 5)⟩ ∧
    (clickWrap .italic (js "text") 0 4).selection
      ≠ some ((0 : Int) + (WrapCommand.italic.pfx.length : Int),
              (0 : Int) + (WrapCommand.italic.pfx.length : Int) + (js "text").length) := by
  decide

/-- Where the wrap buttons do put the caret, on a buffer that the textarea reports
unchanged (no CR in it). After a wrap button is applied to a non-empty selection `S`
(`0 <= start < stop <= buffer.length`), the new buffer is
`buffer[0:start] + P + S + S2 + buffer[stop:]` and the selection handed to
`setSelectionRange` is a single offset; for bold, strikethrough, and italic when `S`
does not begin with `*`, that offset is `start + P.length + S.length`, the end of `S`
inside the wrapper. -/
theorem clickWrap_caret_after_selected (cmd : WrapCommand) (buffer : JSString)
    (start stop : Nat) (hcr : normalizeNewlines buffer = buffer)
    (h1 : start < stop) (h2 : stop ≤ buffer.length) :
    (clickWrap cmd buffer start stop).markdown
      = buffer.take start ++ cmd.pfx ++ (buffer.drop start).take (stop - start) ++ cmd.sfx
          ++ buffer.drop stop ∧
    ((buffer.drop start).take (stop - start)).length = stop - start ∧
    (∃ p : Int, (clickWrap cmd buffer start stop).selection = some (p, p)) ∧
    ((cmd = .bold ∨ cmd = .strikethrough ∨
        (cmd = .italic ∧ ((buffer.drop start).take (stop - start)).head? ≠ some 42)) →
      (clickWrap cmd buffer start stop).selection
        = some ((start : Int) + cmd.pfx.length + ((stop - start : Nat) : Int),
                (start : Int) + cmd.pfx.length + ((stop - start : Nat) : Int))) := by
  have hs : start ≤ buffer.length := le_trans (le_of_lt h1) h2
  have htext := handleSmartInsert_selected buffer cmd.pfx cmd.sfx cmd.defaultText start stop h1 h2
  have hlen : ((buffer.drop start).take (stop - start)).length = stop - start := by
    simp only [List.length_take, List.length_drop]
    omega
  have hne : (start : Int) ≠ (stop : Int) := by omega
  refine ⟨?_, hlen, ?_, ?_⟩
  · unfold clickWrap
    simp only [hcr]
    simp only [htext, handleInsert_markdown, clampIndex_natCast _ _ hs,
      clampIndex_natCast _ _ h2, List.append_assoc]
  · unfold clickWrap
    simp only [handleInsert]
    exact ⟨_, rfl⟩
  · intro hc
    unfold clickWrap
    simp only [hcr]
    simp only [htext, List.append_assoc]
    generalize hS : (buffer.drop start).take (stop - start) = S at hlen hc
    rcases hc with rfl | rfl | ⟨rfl, hhead⟩
    · have hst : startsWith (WrapCommand.bold.pfx ++ (S ++ WrapCommand.bold.sfx)) (js "**")
          = true := startsWith_append _ _
      rw [handleInsert_selection_wrapping buffer buffer _ start stop 2 hne]
      · simp only [WrapCommand.pfx, WrapCommand.sfx, js_bold, List.length_append, hlen,
          List.length_cons, List.length_nil]
        congr 2 <;> push_cast <;> omega
      · rw [includes_of_startsWith _ _ hst]
        rfl
      · rw [hst]
        rfl
    · have hst : startsWith (WrapCommand.strikethrough.pfx ++ (S ++ WrapCommand.strikethrough.sfx))
          (js "~~") = true := startsWith_append _ _
      have h0 : startsWith (WrapCommand.strikethrough.pfx ++ (S ++ WrapCommand.strikethrough.sfx))
          (js "**") = false := by
        simp [WrapCommand.pfx, js_tilde, js_bold, startsWith, List.isPrefixOf]
      rw [handleInsert_selection_wrapping buffer buffer _ start stop 2 hne]
      · simp only [WrapCommand.pfx, WrapCommand.sfx, js_tilde, List.length_append, hlen,
          List.length_cons, List.length_nil]
        congr 2 <;> push_cast <;> omega
      · rw [includes_of_startsWith _ _ hst]
        simp only [Bool.or_true, Bool.true_or]
      · rw [h0, hst]
        rfl
    · have hst : startsWith (WrapCommand.italic.pfx ++ (S ++ WrapCommand.italic.sfx))
          (js "*") = true := startsWith_append _ _
      have h0 : startsWith (WrapCommand.italic.pfx ++ (S ++ WrapCommand.italic.sfx))
          (js "**") = false := by
        cases S with
        | nil => simp at hlen; omega
        | cons c S =>
          have hc : ¬ (42 = c) := by
            intro h
            exact hhead (by simp [← h])
          simp [WrapCommand.pfx, js_star, js_bold, startsWith, List.isPrefixOf, hc]
      have h1 : startsWith (WrapCommand.italic.pfx ++ (S ++ WrapCommand.italic.sfx))
          (js "~~") = false := by
        simp [WrapCommand.pfx, js_star, js_tilde, startsWith, List.isPrefixOf]
      rw [handleInsert_selection_wrapping buffer buffer _ start stop 1 hne]
      · simp only [WrapCommand.pfx, WrapCommand.sfx, js_star, List.length_append, hlen,
          List.length_cons, List.length_nil]
        congr 2 <;> push_cast <;> omega
      · rw [includes_of_startsWith _ _ hst]
        simp only [Bool.or_true, Bool.true_or]
      · rw [h0, h1]
        simp

/-- The scenario of the specification: wrapping `text` with the italic markers yields
`*text*` with the caret at offset 5, after the inner four characters. -/
theorem clickWrap_caret_after_selected_witness :
    (0 : Nat) < 4 ∧ 4 ≤ (js "text").length ∧
    (clickWrap .italic (js "text") (0 : Nat) (4 : Nat)).markdown
      = (js "text").take 0 ++ WrapCommand.italic.pfx ++ ((js "text").drop 0).take (4 - 0)
          ++ WrapCommand.italic.sfx ++ (js "text").drop 4 ∧
    (clickWrap .italic (js "text") (0 : Nat) (4 : Nat)).selection = some (5, 5) :=
  ⟨by decide, by decide,
    (clickWrap_caret_after_selected .italic (js "text") 0 4 (by decide) (by decide)
      (by decide)).1,
    by decide⟩

/-- On a state that holds a CR the offsets are those of the reported value: with the
state `a\r\nb` the element reports `a\nb`, the selected `b` is at 2..3, and the bold
button splices the state at those offsets. -/
theorem clickWrap_on_crlf_state :
    normalizeNewlines (js "a\r\nb") = js "a\nb" ∧
    clickWrap .bold (js "a\r\nb") 2 3 = ⟨js "a\r**b**b", some (5, 5)⟩ := by
  decide

/-! ### The heading expression -/

theorem matchDotPlusEnd_eq_some (r t : JSString) :
    matchDotPlusEnd r = some t ↔
      r ≠ [] ∧ (∀ c ∈ r, isLineTerminator c = false) ∧ t = r := by
  unfold matchDotPlusEnd
  by_cases h : r ≠ [] ∧ (r.all fun c => !isLineTerminator c) = true
  · rw [if_pos h]
    obtain ⟨h1, h2⟩ := h
    rw [List.all_eq_true] at h2
    constructor
    · intro e
      refine ⟨h1, fun c hc => by simpa using h2 c hc, ?_⟩
      exact (Option.some.inj e).symm
    · rintro ⟨_, _, rfl⟩
      rfl
  · rw [if_neg h]
    constructor
    · intro e
      cases e
    · rintro ⟨h1, h2, _⟩
      exact absurd ⟨h1, by rw [List.all_eq_true]; intro c hc; simp [h2 c hc]⟩ h

theorem matchSpacesThen_some (s t : JSString) (n : Nat)
    (h : matchSpacesThen s n = some t) :
    ∃ j, 1 ≤ j ∧ j ≤ n ∧ t = s.drop j ∧ t ≠ [] ∧ ∀ c ∈ t, isLineTerminator c = false := by
  induction n with
  | zero => simp [matchSpacesThen] at h
  | succ j ih =>
    unfold matchSpacesThen at h
    cases hm : matchDotPlusEnd (s.drop (j + 1)) with
    | some u =>
      rw [hm] at h
      have hu : u = t := Option.some.inj h
      subst hu
      obtain ⟨h1, h2, h3⟩ := (matchDotPlusEnd_eq_some _ _).1 hm
      exact ⟨j + 1, by omega, le_refl _, h3, h3 ▸ h1, h3 ▸ h2⟩
    | none =>
      rw [hm] at h
      obtain ⟨i, hi1, hi2, hi3⟩ := ih h
      exact ⟨i, hi1, by omega, hi3⟩

theorem matchSpacesThen_isSome (s : JSString) (n j : Nat) (h1 : 1 ≤ j) (h2 : j ≤ n)
    (hne : s.drop j ≠ []) (hlt : ∀ c ∈ s.drop j, isLineTerminator c = false) :
    (matchSpacesThen s n).isSome = true := by
  induction n with
  | zero => omega
  | succ m ih =>
    unfold matchSpacesThen
    cases hm : matchDotPlusEnd (s.drop (m + 1)) with
    | some u => rfl
    | none =>
      by_cases hj : j = m + 1
      · subst hj
        have := (matchDotPlusEnd_eq_some (s.drop (m + 1)) (s.drop (m + 1))).2 ⟨hne, hlt, rfl⟩
        rw [hm] at this
        cases this
      · exact ih (by omega)

theorem matchHashesThen_some (line h t : JSString) (k0 : Nat)
    (hm : matchHashesThen line k0 = some (h, t)) :
    ∃ k, 1 ≤ k ∧ k ≤ k0 ∧ h = line.take k ∧
      matchSpacesThen (line.drop k) ((line.drop k).takeWhile isWhiteSpace).length = some t := by
  induction k0 with
  | zero => simp [matchHashesThen] at hm
  | succ k ih =>
    unfold matchHashesThen at hm
    cases hs : matchSpacesThen (line.drop (k + 1))
        ((line.drop (k + 1)).takeWhile isWhiteSpace).length with
    | some u =>
      rw [hs] at hm
      have e := Option.some.inj hm
      have e1 : line.take (k + 1) = h := congrArg Prod.fst e
      have e2 : u = t := congrArg Prod.snd e
      subst e2
      exact ⟨k + 1, by omega, le_refl _, e1.symm, hs⟩
    | none =>
      rw [hs] at hm
      obtain ⟨i, hi1, hi2, hi3⟩ := ih hm
      exact ⟨i, hi1, by omega, hi3⟩

theorem matchHashesThen_isSome (line : JSString) (k0 k : Nat) (h1 : 1 ≤ k) (h2 : k ≤ k0)
    (hs : (matchSpacesThen (line.drop k)
      ((line.drop k).takeWhile isWhiteSpace).length).isSome = true) :
    (matchHashesThen line k0).isSome = true := by
  induction k0 with
  | zero => omega
  | succ m ih =>
    unfold matchHashesThen
    cases hm : matchSpacesThen (line.drop (m + 1))
        ((line.drop (m + 1)).takeWhile isWhiteSpace).length with
    | some u => rfl
    | none =>
      by_cases hk : k = m + 1
      · subst hk
        rw [hm] at hs
        cases hs
      · exact ih (by omega)

theorem mem_take_of_le_takeWhile (p : Nat → Bool) (s : JSString) (j : Nat)
    (h : j ≤ (s.takeWhile p).length) : ∀ c ∈ s.take j, p c = true := by
  induction s generalizing j with
  | nil => simp
  | cons a s ih =>
    cases j with
    | zero => simp
    | succ j =>
      by_cases ha : p a = true
      · rw [List.takeWhile_cons, if_pos ha] at h
        intro c hc
        rw [List.take_succ_cons, List.mem_cons] at hc
        rcases hc with rfl | hc
        · exact ha
        · exact ih j (by simpa using h) c hc
      · rw [List.takeWhile_cons, if_neg ha] at h
        simp at h

theorem dropWhile_drop_of_le_takeWhile (p : Nat → Bool) (s : JSString) (j : Nat)
    (h : j ≤ (s.takeWhile p).length) : (s.drop j).dropWhile p = s.dropWhile p := by
  induction s generalizing j with
  | nil => simp
  | cons a s ih =>
    cases j with
    | zero => simp
    | succ j =>
      by_cases ha : p a = true
      · rw [List.takeWhile_cons, if_pos ha] at h
        rw [List.drop_succ_cons, List.dropWhile_cons, if_pos ha]
        exact ih j (by simpa using h)
      · rw [List.takeWhile_cons, if_neg ha] at h
        simp at h

theorem length_takeWhile_le_length (p : Nat → Bool) (s : JSString) :
    (s.takeWhile p).length ≤ s.length := by
  induction s with
  | nil => simp
  | cons a s ih =>
    rw [List.takeWhile_cons]
    split
    · simp only [List.length_cons]; omega
    · simp

theorem length_le_takeWhile_append (p : Nat → Bool) (ws rest : JSString)
    (h : ∀ c ∈ ws, p c = true) : ws.length ≤ ((ws ++ rest).takeWhile p).length := by
  induction ws with
  | nil => simp
  | cons a ws ih =>
    have ha : p a = true := h a (List.mem_cons_self _ _)
    rw [List.cons_append, List.takeWhile_cons, if_pos ha]
    simp only [List.length_cons]
    have := ih (fun c hc => h c (List.mem_cons_of_mem _ hc))
    omega

theorem takeWhile_hash_replicate (k : Nat) (x : JSString)
    (hx : ∀ c, x.head? = some c → c ≠ 35) :
    (List.replicate k 35 ++ x).takeWhile (fun c => c == 35) = List.replicate k 35 := by
  induction k with
  | zero =>
    cases x with
    | nil => rfl
    | cons c x =>
      have : c ≠ 35 := hx c rfl
      simp [List.takeWhile_cons, this]
  | succ k ih =>
    rw [List.replicate_succ, List.cons_append, List.takeWhile_cons]
    simp [ih]

theorem take_hash_run (line : JSString) :
    line.take (line.takeWhile (fun c => c == 35)).length
      = List.replicate (line.takeWhile (fun c => c == 35)).length 35 := by
  induction line with
  | nil => rfl
  | cons a s ih =>
    by_cases ha : (a == 35) = true
    · rw [List.takeWhile_cons, if_pos ha]
      have ha2 : a = 35 := by simpa using ha
      simp only [List.length_cons, List.take_succ_cons, List.replicate_succ, ih, ha2]
    · rw [List.takeWhile_cons, if_neg ha]
      rfl

theorem drop_in_hash_run (line : JSString) (k : Nat)
    (hk : k < (line.takeWhile (fun c => c == 35)).length) :
    ∃ x, line.drop k = 35 :: x := by
  induction line generalizing k with
  | nil => simp at hk
  | cons a s ih =>
    by_cases ha : (a == 35) = true
    · rw [List.takeWhile_cons, if_pos ha] at hk
      have ha2 : a = 35 := by simpa using ha
      cases k with
      | zero => exact ⟨s, by simp [ha2]⟩
      | succ k =>
        rw [List.drop_succ_cons]
        exact ih k (by simpa using hk)
    · rw [List.takeWhile_cons, if_neg ha] at hk
      simp at hk

/-- What a successful match of the heading expression captures: the whole run of
leading `#` (1 to 6 of them), and the line from some point inside the whitespace
that follows, non-empty and free of line terminators. -/
theorem matchHeading_some (line h t : JSString) (hm : matchHeading line = some (h, t)) :
    ∃ j, 1 ≤ h.length ∧ h.length ≤ 6 ∧
      h.length = (line.takeWhile (fun c => c == 35)).length ∧
      h = List.replicate h.length 35 ∧ 1 ≤ j ∧
      j ≤ ((line.drop h.length).takeWhile isWhiteSpace).length ∧
      t = (line.drop h.length).drop j ∧ t ≠ [] ∧
      ∀ c ∈ t, isLineTerminator c = false := by
  unfold matchHeading at hm
  obtain ⟨k, hk1, hk2, hh, hs⟩ := matchHashesThen_some _ _ _ _ hm
  obtain ⟨j, hj1, hj2, ht, hne, hlt⟩ := matchSpacesThen_some _ _ _ hs
  have hrun := length_takeWhile_le_length (fun c => c == 35) line
  have hkH : k = (line.takeWhile (fun c => c == 35)).length := by
    by_contra hne2
    have hlt2 : k < (line.takeWhile (fun c => c == 35)).length := by omega
    obtain ⟨x, hx⟩ := drop_in_hash_run line k hlt2
    rw [hx] at hj2
    have : isWhiteSpace 35 = false := by decide
    simp [List.takeWhile_cons, this] at hj2
    omega
  have hlen : h.length = k := by
    rw [hh, List.length_take]
    omega
  refine ⟨j, by omega, by omega, by omega, ?_, hj1, ?_, ?_, hne, hlt⟩
  · rw [hlen, hh, hkH]
    exact take_hash_run line
  · rw [hlen]; exact hj2
  · rw [hlen]; exact ht

theorem matchHeading_isSome_of_parts (k : Nat) (ws rest : JSString) (h1 : 1 ≤ k) (h6 : k ≤ 6)
    (hws : ws ≠ []) (hall : ∀ c ∈ ws, isWhiteSpace c = true) (hrest : rest ≠ [])
    (hlt : ∀ c ∈ rest, isLineTerminator c = false) :
    (matchHeading (List.replicate k 35 ++ ws ++ rest)).isSome = true := by
  have hhead : ∀ c, (ws ++ rest).head? = some c → c ≠ 35 := by
    intro c hc
    cases ws with
    | nil => exact absurd rfl hws
    | cons w ws =>
      simp only [List.cons_append, List.head?_cons, Option.some.injEq] at hc
      subst hc
      intro h35
      have := hall w (List.mem_cons_self _ _)
      rw [h35] at this
      revert this
      decide
  unfold matchHeading
  rw [List.append_assoc, takeWhile_hash_replicate k _ hhead, List.length_replicate,
    Nat.min_eq_right h6]
  apply matchHashesThen_isSome _ k k h1 (le_refl _)
  have hdrop : (List.replicate k 35 ++ (ws ++ rest)).drop k = ws ++ rest := by
    have hd := List.drop_left (List.replicate k 35) (ws ++ rest)
    rwa [List.length_replicate] at hd
  rw [hdrop]
  apply matchSpacesThen_isSome _ _ ws.length
  · cases ws with
    | nil => exact absurd rfl hws
    | cons w ws => simp
  · exact length_le_takeWhile_append _ _ _ hall
  · rw [List.drop_left]; exact hrest
  · rw [List.drop_left]; exact hlt

theorem matchHeading_isSome_iff (line : JSString) :
    (matchHeading line).isSome = true ↔ HeadingLine line := by
  constructor
  · intro h
    obtain ⟨⟨hs, t⟩, hm⟩ := Option.isSome_iff_exists.1 h
    obtain ⟨j, h1, h6, hrun, hrep, hj1, hj2, ht, hne, hlt⟩ := matchHeading_some line hs t hm
    have hjlen := length_takeWhile_le_length isWhiteSpace (line.drop hs.length)
    refine ⟨hs.length, (line.drop hs.length).take j, t, h1, h6, ?_, ?_, hne, hlt, ?_⟩
    · intro he
      have := congrArg List.length he
      simp only [List.length_take, List.length_nil] at this
      omega
    · exact mem_take_of_le_takeWhile isWhiteSpace _ j hj2
    · have e1 : line.take hs.length = List.replicate hs.length 35 := by
        rw [hrun]
        exact take_hash_run line
      rw [← e1, ht, List.append_assoc, List.take_append_drop, List.take_append_drop]
  · rintro ⟨k, ws, rest, h1, h6, hws, hall, hrest, hlt, rfl⟩
    exact matchHeading_isSome_of_parts k ws rest h1 h6 hws hall hrest hlt

theorem headingOfLine_isSome (lower : JSString → JSString) (line : JSString) :
    (headingOfLine lower line).isSome = (matchHeading line).isSome := by
  unfold headingOfLine
  cases matchHeading line with
  | none => rfl
  | some p => rfl

theorem foldl_pushHeading (lower : JSString → JSString) (l : List JSString)
    (acc : List Heading) :
    l.foldl (pushHeading lower) acc = acc ++ l.filterMap (headingOfLine lower) := by
  induction l generalizing acc with
  | nil => simp
  | cons a l ih =>
    rw [List.foldl_cons, ih, List.filterMap_cons]
    unfold pushHeading
    cases headingOfLine lower a with
    | none => rfl
    | some b => simp

theorem extractHeadings_eq_filterMap (lower : JSString → JSString) (content : JSString) :
    extractHeadings lower content = (splitLines content).filterMap (headingOfLine lower) := by
  unfold extractHeadings
  rw [foldl_pushHeading]
  rfl

theorem length_filterMap_eq_length_filter {α β : Type} (f : α → Option β) (l : List α) :
    (l.filterMap f).length = (l.filter fun x => (f x).isSome).length := by
  induction l with
  | nil => rfl
  | cons a l ih =>
    rw [List.filterMap_cons, List.filter_cons]
    cases f a with
    | none => simpa using ih
    | some b => simpa using ih

/-- C3 (counterexample). The line `# Title` followed by a carriage return has one
leading `#`, one whitespace unit and non-empty trailing text, and it is a line of the
document `# Title\r\n`; yet `extractHeadings` returns no entry for that document. -/
theorem extractHeadings_skips_line_with_cr :
    HeadingPattern (js "# Title\r") ∧
    splitLines (js "# Title\r\n") = [js "# Title\r", js ""] ∧
    extractHeadings asciiToLowerCase (js "# Title\r\n") = [] :=
  ⟨⟨1, js " ", js "Title\r", by decide, by decide, by decide, by decide, by decide, by decide⟩,
    by decide, by decide⟩

/-- C3 (amended). For every document, `extractHeadings` returns exactly one entry per
line (of the split on `\n`) that consists of 1 to 6 leading `#`, then at least one
whitespace unit, then non-empty trailing text free of line terminators (CR, U+2028,
U+2029), in the order of those lines: it is the list of the entries of the accepted
lines, and a line is accepted exactly when it has that shape. -/
theorem extractHeadings_one_entry_per_heading_line (lower : JSString → JSString)
    (content : JSString) :
    extractHeadings lower content = (splitLines content).filterMap (headingOfLine lower) ∧
    (extractHeadings lower content).length
      = ((splitLines content).filter fun l => (headingOfLine lower l).isSome).length ∧
    ∀ line, (headingOfLine lower line).isSome = true ↔ HeadingLine line := by
  refine ⟨extractHeadings_eq_filterMap lower content, ?_, ?_⟩
  · rw [extractHeadings_eq_filterMap, length_filterMap_eq_length_filter]
  · intro line
    rw [headingOfLine_isSome]
    exact matchHeading_isSome_iff line

/-! ### The anchor id -/

theorem stripSpecial_eq_filter (s : JSString) :
    stripSpecial s = s.filter fun c =>
      isWordChar c || isWhiteSpace c || (19968 ≤ c && c ≤ 40869) || c == 45 := by
  unfold stripSpecial
  induction s with
  | nil => rfl
  | cons a s ih =>
    rw [List.flatMap_cons, ih, List.filter_cons]
    split <;> rfl

theorem replaceSpaceRunsFrom_true (s : JSString) :
    replaceSpaceRunsFrom true s = replaceSpaceRunsFrom false (s.dropWhile isWhiteSpace) := by
  induction s with
  | nil => rfl
  | cons a s ih =>
    by_cases ha : isWhiteSpace a = true
    · rw [List.dropWhile_cons, if_pos ha, ← ih]
      simp [replaceSpaceRunsFrom, ha]
    · rw [List.dropWhile_cons, if_neg ha]
      simp [replaceSpaceRunsFrom, ha]

theorem replaceSpaceRuns_eq_hyphenateRuns (s : JSString) :
    replaceSpaceRuns s = hyphenateRuns s := by
  unfold replaceSpaceRuns hyphenateRuns
  generalize hn : s.length = n
  induction n using Nat.strong_induction_on generalizing s with
  | _ n ih =>
    cases s with
    | nil =>
      rw [hyphenateRunsOf]
      rfl
    | cons a s =>
      rw [hyphenateRunsOf]
      by_cases ha : isWhiteSpace a = true
      · rw [if_pos ha]
        have hlen := List.Sublist.length_le (List.dropWhile_sublist isWhiteSpace (l := s))
        have := ih (s.dropWhile isWhiteSpace).length
          (by simp only [List.length_cons] at hn; omega) (s.dropWhile isWhiteSpace) rfl
        rw [← this, ← replaceSpaceRunsFrom_true]
        simp [replaceSpaceRunsFrom, ha]
      · rw [if_neg ha]
        have := ih s.length (by simp only [List.length_cons] at hn; omega) s rfl
        rw [← this]
        simp [replaceSpaceRunsFrom, ha]

theorem headingId_eq_slugSpec (lower : JSString → JSString) (text : JSString) :
    headingId lower text = slugSpec lower text := by
  unfold headingId slugSpec
  rw [stripSpecial_eq_filter, replaceSpaceRuns_eq_hyphenateRuns]

theorem mem_replaceSpaceRunsFrom (b : Bool) (s : JSString) (c : Nat)
    (h : c ∈ replaceSpaceRunsFrom b s) : c = 45 ∨ (c ∈ s ∧ isWhiteSpace c = false) := by
  induction s generalizing b with
  | nil => simp [replaceSpaceRunsFrom] at h
  | cons a s ih =>
    unfold replaceSpaceRunsFrom at h
    by_cases ha : isWhiteSpace a = true
    · rw [if_pos ha] at h
      cases b with
      | true =>
        simp only [if_true] at h
        rcases ih true h with h1 | ⟨h1, h2⟩
        · exact Or.inl h1
        · exact Or.inr ⟨List.mem_cons_of_mem _ h1, h2⟩
      | false =>
        simp only [Bool.false_eq_true, if_false, List.mem_cons] at h
        rcases h with h | h
        · exact Or.inl h
        · rcases ih true h with h1 | ⟨h1, h2⟩
          · exact Or.inl h1
          · exact Or.inr ⟨List.mem_cons_of_mem _ h1, h2⟩
    · rw [if_neg ha, List.mem_cons] at h
      rcases h with h | h
      · subst h
        exact Or.inr ⟨List.mem_cons_self _ _, by simpa using ha⟩
      · rcases ih false h with h1 | ⟨h1, h2⟩
        · exact Or.inl h1
        · exact Or.inr ⟨List.mem_cons_of_mem _ h1, h2⟩

theorem mem_headingId (lower : JSString → JSString) (text : JSString) (c : Nat)
    (h : c ∈ headingId lower text) :
    isWordChar c = true ∨ (19968 ≤ c ∧ c ≤ 40869) ∨ c = 45 := by
  unfold headingId replaceSpaceRuns at h
  rcases mem_replaceSpaceRunsFrom _ _ _ h with h1 | ⟨h1, h2⟩
  · exact Or.inr (Or.inr h1)
  · rw [stripSpecial_eq_filter, List.mem_filter] at h1
    have h3 := h1.2
    simp only [h2, Bool.or_false, Bool.or_eq_true, Bool.and_eq_true, decide_eq_true_eq,
      beq_iff_eq] at h3
    rcases h3 with (h3 | h3) | h3
    · exact Or.inl h3
    · exact Or.inr (Or.inl h3)
    · exact Or.inr (Or.inr h3)

theorem headingOfLine_some (lower : JSString → JSString) (line : JSString) (e : Heading)
    (h : headingOfLine lower line = some e) :
    ∃ hs t, matchHeading line = some (hs, t) ∧
      e = { level := hs.length, text := trim t, id := headingId lower (trim t) } := by
  unfold headingOfLine at h
  cases hm : matchHeading line with
  | none => rw [hm] at h; cases h
  | some p =>
    obtain ⟨hs, t⟩ := p
    rw [hm] at h
    exact ⟨hs, t, rfl, (Option.some.inj h).symm⟩

theorem trim_drop_of_le_takeWhile (s : JSString) (j : Nat)
    (h : j ≤ (s.takeWhile isWhiteSpace).length) : trim (s.drop j) = trim s := by
  unfold trim
  rw [dropWhile_drop_of_le_takeWhile isWhiteSpace s j h]

/-- C4. Every entry of `extractHeadings` comes from a line of the document; its level
is the number of leading `#` of that line, between 1 and 6; its text is the non-empty
trailing text (what follows the `#` and whitespace) trimmed, which is also what follows
the `#` trimmed; its id is the slug of that text: lowercased, units other than word
characters, whitespace, U+4E00..U+9FA5 and hyphen removed, each run of whitespace
replaced by one hyphen, so that only word characters, those ideographs and hyphens
remain. -/
theorem extractHeadings_entry (lower : JSString → JSString) (content : JSString)
    (e : Heading) (he : e ∈ extractHeadings lower content) :
    ∃ line ∈ splitLines content, headingOfLine lower line = some e ∧
      e.level = (line.takeWhile (fun c => c == 35)).length ∧ 1 ≤ e.level ∧ e.level ≤ 6 ∧
      (∃ ws rest, line = List.replicate e.level 35 ++ ws ++ rest ∧ ws ≠ [] ∧
        (∀ c ∈ ws, isWhiteSpace c = true) ∧ rest ≠ [] ∧ e.text = trim rest) ∧
      e.text = trim (line.drop e.level) ∧
      e.id = slugSpec lower e.text ∧
      ∀ c ∈ e.id, isWordChar c = true ∨ (19968 ≤ c ∧ c ≤ 40869) ∨ c = 45 := by
  rw [extractHeadings_eq_filterMap, List.mem_filterMap] at he
  obtain ⟨line, hline, hsome⟩ := he
  obtain ⟨hs, t, hm, rfl⟩ := headingOfLine_some lower line e hsome
  obtain ⟨j, h1, h6, hrun, hrep, hj1, hj2, ht, hne, hlt⟩ := matchHeading_some line hs t hm
  have hjlen := length_takeWhile_le_length isWhiteSpace (line.drop hs.length)
  refine ⟨line, hline, hsome, hrun, h1, h6, ?_, ?_, headingId_eq_slugSpec _ _,
    fun c hc => mem_headingId lower _ c hc⟩
  · refine ⟨(line.drop hs.length).take j, t, ?_, ?_, ?_, hne, rfl⟩
    · have e1 : line.take hs.length = List.replicate hs.length 35 := by
        rw [hrun]
        exact take_hash_run line
      show line = List.replicate hs.length 35 ++ _ ++ t
      rw [← e1, ht, List.append_assoc, List.take_append_drop, List.take_append_drop]
    · intro he
      have := congrArg List.length he
      simp only [List.length_take, List.length_nil] at this
      omega
    · exact mem_take_of_le_takeWhile isWhiteSpace _ j hj2
  · show trim t = trim (line.drop hs.length)
    rw [ht]
    exact trim_drop_of_le_takeWhile _ j hj2

/-- C4, at the scenario of the specification: `# Title\n\ntext\n## Sub\n` yields the
entries (1, `Title`, `title`) and (2, `Sub`, `sub`), and the second one comes from
the line `## Sub`. -/
theorem extractHeadings_entry_witness :
    extractHeadings asciiToLowerCase (js "# Title\n\ntext\n## Sub\n")
      = [⟨1, js "Title", js "title"⟩, ⟨2, js "Sub", js "sub"⟩] ∧
    (⟨2, js "Sub", js "sub"⟩ : Heading)
      ∈ extractHeadings asciiToLowerCase (js "# Title\n\ntext\n## Sub\n") ∧
    ∃ line ∈ splitLines (js "# Title\n\ntext\n## Sub\n"),
      headingOfLine asciiToLowerCase line = some ⟨2, js "Sub", js "sub"⟩ ∧
      (2 : Nat) = (line.takeWhile (fun c => c == 35)).length ∧
      js "Sub" = trim (line.drop 2) ∧
      js "sub" = slugSpec asciiToLowerCase (js "Sub") :=
  ⟨by decide, by decide,
    match extractHeadings_entry asciiToLowerCase (js "# Title\n\ntext\n## Sub\n")
        ⟨2, js "Sub", js "sub"⟩ (by decide) with
    | ⟨line, hl, h1, h2, _, _, _, h6, h7, _⟩ => ⟨line, hl, h1, h2, h6, h7⟩⟩

/-! ### The outline marker -/

theorem js_toc : js "[TOC]" = [91, 84, 79, 67, 93] := by decide

theorem startsWith_iff (s pat : JSString) : startsWith s pat = true ↔ pat <+: s := by
  unfold startsWith
  exact List.isPrefixOf_iff_prefix

theorem includes_iff_occurs (s pat : JSString) : includes s pat = true ↔ pat <:+: s := by
  unfold includes
  rw [List.any_eq_true]
  constructor
  · rintro ⟨i, _, hi⟩
    obtain ⟨b, hb⟩ := (startsWith_iff _ _).1 hi
    refine ⟨s.take i, b, ?_⟩
    rw [List.append_assoc, hb, List.take_append_drop]
  · rintro ⟨a, b, hab⟩
    refine ⟨a.length, ?_, ?_⟩
    · rw [List.mem_range, ← hab]
      simp only [List.length_append]
      omega
    · rw [startsWith_iff, ← hab, List.append_assoc, List.drop_left]
      exact List.prefix_append _ _

theorem removeTOCFrom_marker (rest : JSString) :
    removeTOCFrom 0 (js "[TOC]" ++ rest) = removeTOCFrom 0 rest := by
  rw [js_toc]
  simp [removeTOCFrom, startsWith, js_toc, List.isPrefixOf]

theorem removeTOCFrom_cons (c : Nat) (cs : JSString)
    (h : ¬ startsWith (c :: cs) (js "[TOC]") = true) :
    removeTOCFrom 0 (c :: cs) = c :: removeTOCFrom 0 cs := by
  rw [removeTOCFrom, if_neg h]

/-- One pass of marker removal splits the document around its markers: the pieces hold
no marker, the document is the pieces joined by the marker, and the result is the
pieces put end to end. -/
theorem removeTOC_pieces (content : JSString) :
    ∃ p ps, (∀ q ∈ p :: ps, ¬ js "[TOC]" <:+: q) ∧
      content = List.intercalate (js "[TOC]") (p :: ps) ∧
      removeTOC content = (p :: ps).flatten := by
  unfold removeTOC
  generalize hn : content.length = n
  induction n using Nat.strong_induction_on generalizing content with
  | _ n ih =>
    by_cases hst : startsWith content (js "[TOC]") = true
    · obtain ⟨rest, hrest⟩ := (startsWith_iff _ _).1 hst
      subst hrest
      have hlt : rest.length < n := by
        rw [← hn, js_toc]
        simp only [List.length_append, List.length_cons, List.length_nil]
        omega
      obtain ⟨p, ps, hfree, hjoin, hrem⟩ := ih rest.length hlt rest rfl
      refine ⟨[], p :: ps, ?_, ?_, ?_⟩
      · intro q hq
        rw [List.mem_cons] at hq
        rcases hq with rfl | hq
        · rw [js_toc]
          simp
        · exact hfree q hq
      · conv_lhs => rw [hjoin]
        simp [List.intercalate]
      · rw [removeTOCFrom_marker, hrem]
        simp
    · cases content with
      | nil =>
        refine ⟨[], [], ?_, ?_, ?_⟩
        · intro q hq
          rw [List.mem_singleton] at hq
          subst hq
          rw [js_toc]
          simp
        · simp [List.intercalate]
        · simp [removeTOCFrom]
      | cons c cs =>
        have hlt : cs.length < n := by
          rw [← hn]
          simp
        obtain ⟨p, ps, hfree, hjoin, hrem⟩ := ih cs.length hlt cs rfl
        refine ⟨c :: p, ps, ?_, ?_, ?_⟩
        · intro q hq
          rw [List.mem_cons] at hq
          rcases hq with rfl | hq
          · intro hin
            rcases List.infix_cons_iff.1 hin with hpre | hin2
            · apply hst
              rw [startsWith_iff]
              obtain ⟨b, hb⟩ := hpre
              have hcs : c :: cs = (c :: p) ++ (List.intercalate (js "[TOC]") (p :: ps)).drop p.length := by
                rw [List.cons_append]
                congr 1
                conv_lhs => rw [hjoin]
                cases ps with
                | nil => simp [List.intercalate]
                | cons q qs => simp [List.intercalate]
              rw [hcs, ← hb, List.append_assoc]
              exact List.prefix_append _ _
            · exact hfree p (List.mem_cons_self _ _) hin2
          · exact hfree q (List.mem_cons_of_mem _ hq)
        · conv_lhs => rw [hjoin]
          cases ps with
          | nil => simp [List.intercalate]
          | cons q qs => simp [List.intercalate]
        · rw [removeTOCFrom_cons c cs hst, hrem]
          simp

/-- C9 (counterexample). For the document `[T[TOC]OC]` the text handed to the renderer
is `[TOC]`: removing the inner marker joins the two halves of a new one. -/
theorem processContent_leaves_marker :
    (processContent asciiToLowerCase (js "[T[TOC]OC]")).processedContent = js "[TOC]" ∧
    includes (processContent asciiToLowerCase (js "[T[TOC]OC]")).processedContent (js "[TOC]")
      = true := by
  decide

/-- C9 (amended). For every document, `hasTOC` is true exactly when `[TOC]` occurs in
it, and the text handed to the renderer is the document with the occurrences of `[TOC]`
deleted in one left-to-right pass: the document is a sequence of pieces, none holding
the marker, joined by the marker, and `processedContent` is those pieces put end to
end (it equals the document when `hasTOC` is false). -/
theorem processContent_marker (lower : JSString → JSString) (content : JSString) :
    ((processContent lower content).hasTOC = true ↔ js "[TOC]" <:+: content) ∧
    (∃ pieces : List JSString, pieces ≠ [] ∧ (∀ q ∈ pieces, ¬ js "[TOC]" <:+: q) ∧
      content = List.intercalate (js "[TOC]") pieces ∧
      (processContent lower content).processedContent = pieces.flatten) ∧
    ((processContent lower content).hasTOC = false →
      (processContent lower content).processedContent = content) := by
  refine ⟨includes_iff_occurs _ _, ?_, ?_⟩
  · obtain ⟨p, ps, hfree, hjoin, hrem⟩ := removeTOC_pieces content
    exact ⟨p :: ps, List.cons_ne_nil _ _, hfree, hjoin, hrem⟩
  · intro hno
    have hnot : ¬ js "[TOC]" <:+: content := by
      intro hin
      have := (includes_iff_occurs content (js "[TOC]")).2 hin
      have h2 : includes content (js "[TOC]") = false := hno
      rw [this] at h2
      cases h2
    obtain ⟨p, ps, hfree, hjoin, hrem⟩ := removeTOC_pieces content
    show removeTOC content = content
    cases ps with
    | nil =>
      rw [hrem, hjoin]
      simp [List.intercalate]
    | cons q qs =>
      exfalso
      apply hnot
      rw [hjoin]
      refine ⟨p, List.intercalate (js "[TOC]") (q :: qs), ?_⟩
      simp [List.intercalate]

/-! ### Scroll synchronisation -/

theorem handlePreviewScroll_of_editor_flag (s : SyncState) (g : ℚ)
    (h : s.isScrollingEditor = true) : handlePreviewScroll g s = s := by
  unfold handlePreviewScroll
  rw [if_pos h]

theorem handleEditorScroll_of_preview_flag (s : SyncState) (g : ℚ)
    (h : s.isScrollingPreview = true) : handleEditorScroll g s = s := by
  unfold handleEditorScroll
  rw [if_pos h]

/-- While the editor's flag is set and the preview's is clear, events that fire no
timer keep both flags as they are. -/
theorem editor_window_kept (evs : List SyncEvent) (s : SyncState)
    (he : s.isScrollingEditor = true) (hp : s.isScrollingPreview = false)
    (ht : ∃ due, s.scrollSyncTimeout = some (PaneId.editor, due))
    (hq : s.noTimerFires evs = true) :
    (s.run evs).isScrollingEditor = true ∧ (s.run evs).isScrollingPreview = false := by
  induction evs generalizing s with
  | nil => exact ⟨he, hp⟩
  | cons ev evs ih =>
    have hrun : s.run (ev :: evs) = (s.step ev).run evs := rfl
    rw [hrun]
    cases ev with
    | editorScroll f =>
      have hq2 : (s.step (.editorScroll f)).noTimerFires evs = true := by
        simpa [SyncState.noTimerFires] using hq
      apply ih _ _ _ _ hq2
      · simp [SyncState.step, handleEditorScroll, hp]
      · simp [SyncState.step, handleEditorScroll, hp]
      · exact ⟨s.now + 100, by simp [SyncState.step, handleEditorScroll, hp]⟩
    | previewScroll g =>
      have hq2 : (s.step (.previewScroll g)).noTimerFires evs = true := by
        simpa [SyncState.noTimerFires] using hq
      have hst : s.step (.previewScroll g) = s := handlePreviewScroll_of_editor_flag s g he
      rw [hst] at hq2 ⊢
      exact ih s he hp ht hq2
    | elapse ms =>
      have hq1 : s.timerDue ms = false ∧ (s.step (.elapse ms)).noTimerFires evs = true := by
        simpa [SyncState.noTimerFires] using hq
      obtain ⟨due, hdue⟩ := ht
      have hnd : ¬ due ≤ s.now + ms := by
        have := hq1.1
        simpa [SyncState.timerDue, hdue] using this
      have hst : s.step (.elapse ms) = { s with now := s.now + ms } := by
        simp [SyncState.step, SyncState.elapse, hdue, hnd]
      rw [hst] at hq1 ⊢
      exact ih _ he hp ⟨due, hdue⟩ hq1.2

/-- While the preview's flag is set and the editor's is clear, events that fire no
timer keep both flags as they are. -/
theorem preview_window_kept (evs : List SyncEvent) (s : SyncState)
    (hp : s.isScrollingPreview = true) (he : s.isScrollingEditor = false)
    (ht : ∃ due, s.scrollSyncTimeout = some (PaneId.preview, due))
    (hq : s.noTimerFires evs = true) :
    (s.run evs).isScrollingPreview = true ∧ (s.run evs).isScrollingEditor = false := by
  induction evs generalizing s with
  | nil => exact ⟨hp, he⟩
  | cons ev evs ih =>
    have hrun : s.run (ev :: evs) = (s.step ev).run evs := rfl
    rw [hrun]
    cases ev with
    | previewScroll f =>
      have hq2 : (s.step (.previewScroll f)).noTimerFires evs = true := by
        simpa [SyncState.noTimerFires] using hq
      apply ih _ _ _ _ hq2
      · simp [SyncState.step, handlePreviewScroll, he]
      · simp [SyncState.step, handlePreviewScroll, he]
      · exact ⟨s.now + 100, by simp [SyncState.step, handlePreviewScroll, he]⟩
    | editorScroll g =>
      have hq2 : (s.step (.editorScroll g)).noTimerFires evs = true := by
        simpa [SyncState.noTimerFires] using hq
      have hst : s.step (.editorScroll g) = s := handleEditorScroll_of_preview_flag s g hp
      rw [hst] at hq2 ⊢
      exact ih s hp he ht hq2
    | elapse ms =>
      have hq1 : s.timerDue ms = false ∧ (s.step (.elapse ms)).noTimerFires evs = true := by
        simpa [SyncState.noTimerFires] using hq
      obtain ⟨due, hdue⟩ := ht
      have hnd : ¬ due ≤ s.now + ms := by
        have := hq1.1
        simpa [SyncState.timerDue, hdue] using this
      have hst : s.step (.elapse ms) = { s with now := s.now + ms } := by
        simp [SyncState.step, SyncState.elapse, hdue, hnd]
      rw [hst] at hq1 ⊢
      exact ih _ hp he ⟨due, hdue⟩ hq1.2

theorem editorScroll_propagates (s : SyncState) (f : ℚ) (hp : s.isScrollingPreview = false) :
    (s.step (.editorScroll f)).isScrollingEditor = true ∧
    (s.step (.editorScroll f)).preview = s.preview.map (fun el =>
      { el with scrollTop := f * (el.scrollHeight - el.clientHeight) }) ∧
    (s.step (.editorScroll f)).textarea = s.textarea ∧
    (s.step (.editorScroll f)).scrollSyncTimeout = some (PaneId.editor, s.now + 100) ∧
    ∀ evs, (s.step (.editorScroll f)).noTimerFires evs = true → ∀ g,
      ((s.step (.editorScroll f)).run evs).step (.previewScroll g)
        = (s.step (.editorScroll f)).run evs := by
  have h1 : (s.step (.editorScroll f)).isScrollingEditor = true := by
    simp [SyncState.step, handleEditorScroll, hp]
  have h2 : (s.step (.editorScroll f)).isScrollingPreview = false := by
    simp [SyncState.step, handleEditorScroll, hp]
  have h3 : (s.step (.editorScroll f)).scrollSyncTimeout = some (PaneId.editor, s.now + 100) := by
    simp [SyncState.step, handleEditorScroll, hp]
  refine ⟨h1, ?_, ?_, h3, ?_⟩
  · simp [SyncState.step, handleEditorScroll, hp]
  · simp [SyncState.step, handleEditorScroll, hp]
  · intro evs hq g
    exact handlePreviewScroll_of_editor_flag _ g
      (editor_window_kept evs _ h1 h2 ⟨_, h3⟩ hq).1

theorem previewScroll_propagates (s : SyncState) (f : ℚ) (he : s.isScrollingEditor = false) :
    (s.step (.previewScroll f)).isScrollingPreview = true ∧
    (s.step (.previewScroll f)).textarea = s.textarea.map (fun el =>
      { el with scrollTop := f * (el.scrollHeight - el.clientHeight) }) ∧
    (s.step (.previewScroll f)).preview = s.preview ∧
    (s.step (.previewScroll f)).scrollSyncTimeout = some (PaneId.preview, s.now + 100) ∧
    ∀ evs, (s.step (.previewScroll f)).noTimerFires evs = true → ∀ g,
      ((s.step (.previewScroll f)).run evs).step (.editorScroll g)
        = (s.step (.previewScroll f)).run evs := by
  have h1 : (s.step (.previewScroll f)).isScrollingPreview = true := by
    simp [SyncState.step, handlePreviewScroll, he]
  have h2 : (s.step (.previewScroll f)).isScrollingEditor = false := by
    simp [SyncState.step, handlePreviewScroll, he]
  have h3 : (s.step (.previewScroll f)).scrollSyncTimeout
      = some (PaneId.preview, s.now + 100) := by
    simp [SyncState.step, handlePreviewScroll, he]
  refine ⟨h1, ?_, ?_, h3, ?_⟩
  · simp [SyncState.step, handlePreviewScroll, he]
  · simp [SyncState.step, handlePreviewScroll, he]
  · intro evs hq g
    exact handleEditorScroll_of_preview_flag _ g
      (preview_window_kept evs _ h1 h2 ⟨_, h3⟩ hq).1

/-- C5. A scroll event with fraction `f` in pane `A` while the flag of the other pane
`B` is clear sets the scroll offset of `B` to `f * (B.scrollHeight - B.clientHeight)`,
leaves the element of `A` alone, sets the flag of `A` and arms the one reset timer for
100 ms later; and after it, whatever scroll events and delays follow, as long as no
reset timer has fired a scroll event in `B` leaves the whole state (both offsets, both
flags, the timer) unchanged. -/
theorem scrollSync_propagates_then_suppresses (s : SyncState) (A : PaneId) (f : ℚ)
    (hB : s.flag A.other = false) :
    (s.step (.scroll A f)).flag A = true ∧
    (s.step (.scroll A f)).pane A.other = (s.pane A.other).map (fun el =>
      { el with scrollTop := f * (el.scrollHeight - el.clientHeight) }) ∧
    (s.step (.scroll A f)).pane A = s.pane A ∧
    (s.step (.scroll A f)).scrollSyncTimeout = some (A, s.now + 100) ∧
    ∀ evs, (s.step (.scroll A f)).noTimerFires evs = true → ∀ g,
      ((s.step (.scroll A f)).run evs).step (.scroll A.other g)
        = (s.step (.scroll A f)).run evs := by
  cases A with
  | editor => exact editorScroll_propagates s f hB
  | preview => exact previewScroll_propagates s f hB

/-- C5, on a session: with both flags clear, a preview of height 1000 showing 400 and
the editor scrolled to one half, the preview is moved to offset 300; a preview scroll,
50 ms, another editor scroll and 99 ms later, a preview scroll still changes nothing. -/
theorem scrollSync_propagates_then_suppresses_witness :
    (⟨0, false, false, none, some ⟨0, 2000, 500⟩, some ⟨0, 1000, 400⟩⟩ : SyncState).flag
      PaneId.editor.other = false ∧
    ((⟨0, false, false, none, some ⟨0, 2000, 500⟩, some ⟨0, 1000, 400⟩⟩ : SyncState).step
      (.scroll .editor (1 / 2))).pane PaneId.editor.other
      = some ⟨(1 / 2) * (1000 - 400), 1000, 400⟩ ∧
    ((⟨0, false, false, none, some ⟨0, 2000, 500⟩, some ⟨0, 1000, 400⟩⟩ : SyncState).step
      (.scroll .editor (1 / 2))).noTimerFires
      [.previewScroll 1, .elapse 50, .editorScroll (1 / 4), .elapse 99] = true ∧
    ((((⟨0, false, false, none, some ⟨0, 2000, 500⟩, some ⟨0, 1000, 400⟩⟩ : SyncState).step
      (.scroll .editor (1 / 2))).run
      [.previewScroll 1, .elapse 50, .editorScroll (1 / 4), .elapse 99]).step
      (.scroll PaneId.editor.other 0))
      = ((⟨0, false, false, none, some ⟨0, 2000, 500⟩, some ⟨0, 1000, 400⟩⟩ : SyncState).step
      (.scroll .editor (1 / 2))).run
      [.previewScroll 1, .elapse 50, .editorScroll (1 / 4), .elapse 99] :=
  ⟨rfl,
    (scrollSync_propagates_then_suppresses
      ⟨0, false, false, none, some ⟨0, 2000, 500⟩, some ⟨0, 1000, 400⟩⟩ .editor (1 / 2) rfl).2.1,
    by decide,
    (scrollSync_propagates_then_suppresses
      ⟨0, false, false, none, some ⟨0, 2000, 500⟩, some ⟨0, 1000, 400⟩⟩ .editor (1 / 2)
      rfl).2.2.2.2 _ (by decide) 0⟩

/-! ### Auto-save -/

theorem change_of_ne (s : Session) (v : JSString) (hl : s.isLoaded = true)
    (hv : s.markdown ≠ v) :
    s.change v = { s with markdown := v, saveTimeout := some (s.now + 1000, v) } := by
  unfold Session.change
  rw [if_neg (fun h => hv h.symm)]
  simp [autoSaveEffect, autoSaveCleanup, hl]

theorem elapse_before_due (s : Session) (ms due : Nat) (v : JSString)
    (ht : s.saveTimeout = some (due, v)) (h : s.now + ms < due) :
    s.elapse ms = { s with now := s.now + ms } := by
  unfold Session.elapse
  rw [ht]
  simp only
  rw [if_neg (by omega)]

theorem elapse_when_due (s : Session) (ms due : Nat) (v : JSString)
    (ht : s.saveTimeout = some (due, v)) (h : due ≤ s.now + ms) :
    s.elapse ms = { s with now := s.now + ms, saveTimeout := none, saved := s.saved ++ [v] } := by
  unfold Session.elapse
  rw [ht]
  simp only
  rw [if_pos h]

/-- During a burst of edits less than 1000 ms apart nothing is saved, and at its end
the one pending timer holds the last value. -/
theorem burst_keeps_pending (rest : List (Nat × JSString)) (t : Session)
    (hl : t.isLoaded = true) (ht : t.saveTimeout = some (t.now + 1000, t.markdown))
    (hchg : List.Chain (fun a b => a ≠ b) t.markdown (rest.map Prod.snd))
    (hgap : ∀ x ∈ rest, x.1 < 1000) :
    (t.burst rest).saved = t.saved ∧ (t.burst rest).isLoaded = true ∧
    (t.burst rest).markdown = (t.markdown :: rest.map Prod.snd).getLast (List.cons_ne_nil _ _) ∧
    (t.burst rest).saveTimeout = some ((t.burst rest).now + 1000, (t.burst rest).markdown) := by
  induction rest generalizing t with
  | nil => exact ⟨rfl, hl, rfl, ht⟩
  | cons x rest ih =>
    obtain ⟨ms, value⟩ := x
    have hms : ms < 1000 := hgap (ms, value) (List.mem_cons_self _ _)
    simp only [List.map_cons, List.chain_cons] at hchg
    have h1 : t.elapse ms = { t with now := t.now + ms } :=
      elapse_before_due t ms _ _ ht (by omega)
    have h2 : (t.elapse ms).change value
        = { t with now := t.now + ms, markdown := value,
                   saveTimeout := some (t.now + ms + 1000, value) } := by
      rw [h1]
      exact change_of_ne { t with now := t.now + ms } value hl hchg.1
    have hb : t.burst ((ms, value) :: rest) = ((t.elapse ms).change value).burst rest := rfl
    rw [hb, h2]
    have := ih { t with now := t.now + ms, markdown := value,
                        saveTimeout := some (t.now + ms + 1000, value) }
      hl rfl hchg.2 (fun x hx => hgap x (List.mem_cons_of_mem _ hx))
    obtain ⟨k1, k2, k3, k4⟩ := this
    refine ⟨k1, k2, ?_, k4⟩
    rw [k3]
    simp only [List.map_cons]
    rw [List.getLast_cons (List.cons_ne_nil _ _)]

/-- C6. In a loaded session, let the buffer be changed to `v`, then changed again
after each of the delays of `rest`, every delay shorter than 1000 ms and every change
replacing the buffer by a different value, and let at least 1000 ms pass after the last
change. Then over the whole trace `saveContent` is called exactly once more, with the
value of the last change: nothing is saved during the burst, the log of calls ends up
as the former log followed by that one value, and no timer is left pending. -/
theorem autoSave_saves_last_once (s : Session) (v : JSString) (rest : List (Nat × JSString))
    (pause : Nat) (hl : s.isLoaded = true)
    (hchg : List.Chain (fun a b => a ≠ b) s.markdown (v :: rest.map Prod.snd))
    (hgap : ∀ x ∈ rest, x.1 < 1000) (hpause : 1000 ≤ pause) :
    ((s.change v).burst rest).saved = s.saved ∧
    (((s.change v).burst rest).elapse pause).saved
      = s.saved ++ [(v :: rest.map Prod.snd).getLast (List.cons_ne_nil _ _)] ∧
    (((s.change v).burst rest).elapse pause).saveTimeout = none := by
  rw [List.chain_cons] at hchg
  have h0 := change_of_ne s v hl hchg.1
  rw [h0]
  obtain ⟨k1, k2, k3, k4⟩ := burst_keeps_pending rest
    { s with markdown := v, saveTimeout := some (s.now + 1000, v) } hl rfl hchg.2 hgap
  refine ⟨k1, ?_, ?_⟩
  · rw [elapse_when_due _ pause _ _ k4 (by omega)]
    show _ ++ [_] = _
    rw [k1, k3]
  · rw [elapse_when_due _ pause _ _ k4 (by omega)]

/-- C6, on a session: three edits 300 ms and 999 ms apart and then a second of rest
save the last text `abcd` once, and nothing else. -/
theorem autoSave_saves_last_once_witness :
    (⟨0, js "a", true, none, []⟩ : Session).isLoaded = true ∧
    List.Chain (fun a b => a ≠ b) (⟨0, js "a", true, none, []⟩ : Session).markdown
      (js "ab" :: [(300, js "abc"), (999, js "abcd")].map Prod.snd) ∧
    (∀ x ∈ [(300, js "abc"), (999, js "abcd")], x.1 < 1000) ∧
    ((((⟨0, js "a", true, none, []⟩ : Session).change (js "ab")).burst
      [(300, js "abc"), (999, js "abcd")]).elapse 1000).saved = [js "abcd"] :=
  ⟨rfl, .cons (by decide) (.cons (by decide) (.cons (by decide) .nil)), by decide,
    (autoSave_saves_last_once ⟨0, js "a", true, none, []⟩ (js "ab")
      [(300, js "abc"), (999, js "abcd")] 1000 rfl
      (.cons (by decide) (.cons (by decide) (.cons (by decide) .nil)))
      (by decide) (by decide)).2.1⟩

/-- C7 (evaluation at the failing input). A session mounted on a storage that holds
`abc`, with no edit at all, calls `saveContent` with `abc` once 1000 ms have passed:
the second run of the auto-save effect, caused by `isLoaded` becoming true, arms the
timer for the loaded text. The same happens with the default document when the
storage is empty, and for every loaded value. -/
theorem mount_then_idle_saves :
    (Session.mount (js "# default") (some (js "abc")) 0).saveTimeout = some (1000, js "abc") ∧
    ((Session.mount (js "# default") (some (js "abc")) 0).elapse 1000).saved = [js "abc"] ∧
    ((Session.mount (js "# default") none 0).elapse 1000).saved = [js "# default"] ∧
    ∀ (defaultContent : JSString) (loaded : Option JSString) (now : Nat),
      ((Session.mount defaultContent loaded now).elapse 1000).saved
        = [(Session.mount defaultContent loaded now).markdown] := by
  refine ⟨by decide, by decide, by decide, ?_⟩
  intro d loaded now
  have hm : (Session.mount d loaded now).saveTimeout
      = some ((Session.mount d loaded now).now + 1000, (Session.mount d loaded now).markdown) := by
    simp [Session.mount, autoSaveEffect, Session.initial]
  rw [elapse_when_due _ 1000 _ _ hm (le_refl _)]
  simp [Session.mount, autoSaveEffect, Session.initial]

/-! ### The buffer at session start -/

theorem loadContent_eq_none_iff (getItem : Except String (Option JSString)) :
    loadContent getItem = none ↔ getItem = .ok none ∨ ∃ e, getItem = .error e := by
  cases getItem with
  | error e => simp [loadContent]
  | ok saved =>
    cases saved with
    | none => simp [loadContent]
    | some v => simp [loadContent]

theorem initialBuffer_eq (getItem : Except String (Option JSString)) :
    initialBuffer getItem =
      match loadContent getItem with
      | some saved => if saved ≠ [] then saved else defaultContent
      | none => defaultContent := by
  unfold initialBuffer Session.mount
  cases loadContent getItem with
  | none => simp [autoSaveEffect, Session.initial]
  | some saved => simp [autoSaveEffect, Session.initial]

/-- C11 (counterexample). When the storage slot holds the empty string, the buffer at
session start is the built-in default document, which is not empty, and not the
persisted text. -/
theorem initialBuffer_empty_slot_gives_default :
    loadContent (.ok (some (js ""))) = some (js "") ∧
    initialBuffer (.ok (some (js ""))) = defaultContent ∧
    initialBuffer (.ok (some (js ""))) ≠ js "" :=
  ⟨rfl, rfl, by decide⟩

/-- C11 (amended). At session start the buffer equals the persisted text whenever the
storage slot holds a non-empty string, and equals the built-in default document when
`loadContent` reports absent (the slot is empty or reading it throws) or the
stored string is empty; these are the only cases in which it is the default document,
apart from the default document being itself the stored text. -/
theorem initialBuffer_from_storage (getItem : Except String (Option JSString)) :
    (∀ stored, getItem = .ok (some stored) → stored ≠ [] → initialBuffer getItem = stored) ∧
    (getItem = .ok (some []) → initialBuffer getItem = defaultContent) ∧
    (loadContent getItem = none → initialBuffer getItem = defaultContent) ∧
    (loadContent getItem = none ↔ getItem = .ok none ∨ ∃ e, getItem = .error e) ∧
    (initialBuffer getItem = defaultContent →
      loadContent getItem = none ∨ getItem = .ok (some []) ∨
        getItem = .ok (some defaultContent)) := by
  refine ⟨?_, ?_, ?_, loadContent_eq_none_iff getItem, ?_⟩
  · rintro stored rfl hne
    rw [initialBuffer_eq]
    simp [loadContent, hne]
  · rintro rfl
    rw [initialBuffer_eq]
    simp [loadContent]
  · intro h
    rw [initialBuffer_eq, h]
  · intro h
    rw [initialBuffer_eq] at h
    cases getItem with
    | error e => exact Or.inl rfl
    | ok saved =>
      cases saved with
      | none => exact Or.inl rfl
      | some v =>
        by_cases hv : v = []
        · subst hv
          exact Or.inr (Or.inl rfl)
        · have : v = defaultContent := by simpa [loadContent, hv] using h
          subst this
          exact Or.inr (Or.inr rfl)

/-- C11 (amended), on three storages: a slot holding `# notes` gives that text, a
slot holding the empty string and a read that throws give the default document. -/
theorem initialBuffer_from_storage_witness :
    js "# notes" ≠ [] ∧
    initialBuffer (.ok (some (js "# notes"))) = js "# notes" ∧
    initialBuffer (.ok (some [])) = defaultContent ∧
    loadContent (.error "SecurityError") = none ∧
    initialBuffer (.error "SecurityError") = defaultContent :=
  ⟨by decide,
    (initialBuffer_from_storage (.ok (some (js "# notes")))).1 (js "# notes") rfl (by decide),
    (initialBuffer_from_storage (.ok (some []))).2.1 rfl,
    rfl,
    (initialBuffer_from_storage (.error "SecurityError")).2.2.1 rfl⟩

/-! ### The scroll fraction -/

/-- C12 (counterexample). For a pane without overflow (scroll height and client height
both 500, scroll offset 0) both handlers pass `NaN` to `onScroll`, not 0. -/
theorem handleScroll_no_overflow_is_nan :
    Editor.handleScroll true ⟨0, 500, 500⟩ = some .nan ∧
    Preview.handleScroll true ⟨0, 500, 500⟩ = some .nan ∧
    Editor.handleScroll true ⟨0, 500, 500⟩ ≠ some (.finite 0) ∧
    Preview.handleScroll true ⟨0, 500, 500⟩ ≠ some (.finite 0) := by
  simp [Editor.handleScroll, Preview.handleScroll, jsDiv]

/-- C12 (amended). The two handlers pass the same fraction. For a pane whose
`scrollHeight` equals its `clientHeight` the fraction is never 0: the handlers divide
unguarded, so it is `NaN` at scroll offset 0 (`0 / 0`). For a pane with
`scrollHeight > clientHeight` and `0 <= scrollTop <= scrollHeight - clientHeight` the
fraction is `scrollTop / (scrollHeight - clientHeight)` and lies in `[0, 1]`. -/
theorem handleScroll_fraction (el : Pane) :
    Preview.handleScroll true el = Editor.handleScroll true el ∧
    (el.scrollHeight = el.clientHeight →
      Editor.handleScroll true el ≠ some (.finite 0) ∧
      (el.scrollTop = 0 → Editor.handleScroll true el = some .nan)) ∧
    (el.clientHeight < el.scrollHeight → 0 ≤ el.scrollTop →
      el.scrollTop ≤ el.scrollHeight - el.clientHeight →
      Editor.handleScroll true el
        = some (.finite (el.scrollTop / (el.scrollHeight - el.clientHeight))) ∧
      0 ≤ el.scrollTop / (el.scrollHeight - el.clientHeight) ∧
      el.scrollTop / (el.scrollHeight - el.clientHeight) ≤ 1) := by
  refine ⟨rfl, ?_, ?_⟩
  · intro h
    have hz : el.scrollHeight - el.clientHeight = 0 := by rw [h]; exact sub_self _
    refine ⟨?_, ?_⟩
    · simp only [Editor.handleScroll, jsDiv, hz, if_true]
      split_ifs <;> simp
    · intro h0
      simp [Editor.handleScroll, jsDiv, hz, h0]
  · intro hlt h0 hle
    have hpos : 0 < el.scrollHeight - el.clientHeight := sub_pos.2 hlt
    refine ⟨?_, div_nonneg h0 (le_of_lt hpos), (div_le_one hpos).2 hle⟩
    simp [Editor.handleScroll, jsDiv, ne_of_gt hpos]

/-- C12 (amended), on two panes: without overflow and at offset 0 the fraction is
`NaN`; a pane of height 1000 showing 400 and scrolled to 150 gives one quarter. -/
theorem handleScroll_fraction_witness :
    Editor.handleScroll true ⟨0, 500, 500⟩ = some .nan ∧
    Editor.handleScroll true ⟨150, 1000, 400⟩ = some (.finite (150 / (1000 - 400))) ∧
    (150 : ℚ) / (1000 - 400) = 1 / 4 :=
  ⟨((handleScroll_fraction ⟨0, 500, 500⟩).2.1 rfl).2 rfl,
    ((handleScroll_fraction ⟨150, 1000, 400⟩).2.2 (by norm_num) (by norm_num)
      (by norm_num)).1,
    by norm_num⟩

end MarkdownEditor
